import Mathlib

/-!
# Minesweeper board model (Board.cpp)

A shallow embedding of the `Board` class of the text-based Minesweeper game and of the
text format it saves and loads.

Conventions of the embedding.

* `int` values are integers (`Int`).  The only arithmetic the board does on them is
  `rows * cols`, `r + dr`, `idx / cols`, `idx % cols` and counting up to nine, and signed
  overflow is undefined in C++, so no wrap-around is modelled.  The one place where the
  32-bit range is observable, the stream extraction `in >> x`, clamps and fails explicitly.
* `std::vector<std::vector<T>>` is `List (List T)`.  A read outside the vector is undefined
  in C++; here it yields a default value and a write outside is dropped.  The theorems
  about the game operations assume a well-formed board, where `inBounds` guards every access.
* A `for (int i = 0; i < n; i++)` loop is `forRange n body`.
* The file system and the dialogue about the file name are outside the model: `saveToFile`
  yields the text written, and `loadFromFile` receives the content of the file (`none` when
  it cannot be opened).  Memory is assumed sufficient for the vectors.
-/

namespace Minesweeper

/-! ## Vectors of vectors -/

/-- The element `g[r][c]`; the default `d` outside the vector. -/
def cellAt {α : Type} (d : α) (g : List (List α)) (r c : Int) : α :=
  if r < 0 ∨ c < 0 then d else ((g.getD r.toNat []).getD c.toNat d)

/-- The assignment `g[r][c] = v`; nothing is written outside the vector. -/
def setCell {α : Type} (g : List (List α)) (r c : Int) (v : α) : List (List α) :=
  if r < 0 ∨ c < 0 then g else g.set r.toNat ((g.getD r.toNat []).set c.toNat v)

/-- The vector `std::vector<std::vector<T>>(rows, std::vector<T>(cols, v))`. -/
def mkGrid {α : Type} (rows cols : Int) (v : α) : List (List α) :=
  List.replicate rows.toNat (List.replicate cols.toNat v)

/-- A grid has exactly `rows` rows of exactly `cols` entries each. -/
def IsGrid {α : Type} (g : List (List α)) (rows cols : Int) : Prop :=
  (g.length : Int) = rows ∧ ∀ row ∈ g, (row.length : Int) = cols

instance {α : Type} (g : List (List α)) (rows cols : Int) : Decidable (IsGrid g rows cols) := by
  unfold IsGrid; infer_instance

/-- The loop `for (int i = 0; i < n; i++) body`, threading the state `s`. -/
def forRange {σ : Type} (n : Int) (body : σ → Int → σ) (s : σ) : σ :=
  (List.range n.toNat).foldl (fun s (i : Nat) => body s (i : Int)) s

/-- The shape shared by the grid loops of the board: visit every cell in row-major order and
write `v` where `F r c = some v`. -/
def fillGrid {α : Type} (rows cols : Int) (F : Int → Int → Option α) (g : List (List α)) :
    List (List α) :=
  forRange rows (fun g r =>
    forRange cols (fun g c =>
      match F r c with
      | some v => setCell g r c v
      | none => g) g) g

/-- The number of true entries of a boolean grid. -/
def countTrue (g : List (List Bool)) : Nat :=
  (g.map (fun row => row.count true)).sum

/-! ## The board -/

/-- The data members of `class Board`. -/
structure Board where
  rows : Int
  cols : Int
  totalMines : Int
  lost : Bool
  mine : List (List Bool)
  revealed : List (List Bool)
  neighbors : List (List Int)
  /-- Modelled from the spec: the member `flagged`, which Board.cpp initialises, reads and
  writes and Board.h does not declare; a boolean grid like `mine` and `revealed`, as its
  initialiser `flagged(r, std::vector<bool>(c, false))` shows. -/
  flagged : List (List Bool)
deriving DecidableEq

namespace Board

/-- The three boolean grids are `rows` x `cols`. -/
def WellFormed (b : Board) : Prop :=
  IsGrid b.mine b.rows b.cols ∧ IsGrid b.revealed b.rows b.cols ∧ IsGrid b.flagged b.rows b.cols

instance (b : Board) : Decidable b.WellFormed := by
  unfold WellFormed; infer_instance

/-- `Board::inBounds`. -/
def inBounds (b : Board) (r c : Int) : Bool :=
  decide (r ≥ 0) && decide (r < b.rows) && decide (c ≥ 0) && decide (c < b.cols)

/-- The number `cnt` that `countNeighbors` computes for the cell `(r, c)`: the two loops over
`dr` and `dc` from -1 to 1. -/
def countAround (b : Board) (r c : Int) : Int :=
  [(-1 : Int), 0, 1].foldl (fun cnt dr =>
    [(-1 : Int), 0, 1].foldl (fun cnt dc =>
      let rr := r + dr
      let cc := c + dc
      if b.inBounds rr cc && cellAt false b.mine rr cc then cnt + 1 else cnt) cnt) 0

/-- `Board::countNeighbors`. -/
def countNeighbors (b : Board) : Board :=
  forRange b.rows (fun b r =>
    forRange b.cols (fun b c =>
      if cellAt false b.mine r c then b
      else { b with neighbors := setCell b.neighbors r c (b.countAround r c) }) b) b

/-- `Board::revealAllMines`. -/
def revealAllMines (b : Board) : Board :=
  forRange b.rows (fun b r =>
    forRange b.cols (fun b c =>
      if cellAt false b.mine r c then { b with revealed := setCell b.revealed r c true }
      else b) b) b

/-- `Board::revealCell`. -/
def revealCell (b : Board) (r c : Int) : Board :=
  if !b.inBounds r c || cellAt false b.revealed r c || cellAt false b.flagged r c then b
  else
    let b1 := { b with revealed := setCell b.revealed r c true }
    if cellAt false b1.mine r c then revealAllMines { b1 with lost := true }
    else b1

/-- `Board::toggleFlag`. -/
def toggleFlag (b : Board) (r c : Int) : Board :=
  if !b.inBounds r c || cellAt false b.revealed r c then b
  else { b with flagged := setCell b.flagged r c (!cellAt false b.flagged r c) }

/-- `Board::isWin`: the two loops return false at the first cell that is neither a mine nor
revealed. -/
def isWin (b : Board) : Bool :=
  (List.range b.rows.toNat).all fun (r : Nat) =>
    (List.range b.cols.toNat).all fun (c : Nat) =>
      !(!cellAt false b.mine (r : Int) (c : Int) && !cellAt false b.revealed (r : Int) (c : Int))

/-- `Board::isLost`. -/
def isLost (b : Board) : Bool := b.lost

/-- The constructor `Board::Board(r, c, mines)`.  `idx` is the vector of indices after
`std::shuffle`, the one input the constructor takes from outside. -/
def new (r c mines : Int) (idx : List Int) : Board :=
  let b0 : Board :=
    { rows := r, cols := c, totalMines := mines, lost := false,
      mine := mkGrid r c false, revealed := mkGrid r c false,
      neighbors := mkGrid r c 0, flagged := mkGrid r c false }
  let b1 := forRange b0.totalMines (fun b i =>
    { b with mine := setCell b.mine ((idx.getD i.toNat 0).tdiv b.cols)
                       ((idx.getD i.toNat 0).tmod b.cols) true }) b0
  countNeighbors b1

end Board

/-! ## Text streams

The two stream operations the board uses on `int`, as the C++ standard library defines them
for the classic locale. -/

/-- Largest value of a 32-bit `int`. -/
def intMax : Int := 2147483647

/-- Smallest value of a 32-bit `int`. -/
def intMin : Int := -2147483648

/-- The insertion `out << n` for an `int`: decimal digits, with a minus sign when negative. -/
def putInt (n : Int) : List Char :=
  if n < 0 then '-' :: Nat.toDigits 10 n.natAbs else Nat.toDigits 10 n.natAbs

/-- The characters `std::isspace` accepts, which extraction skips. -/
def isSpace (ch : Char) : Bool :=
  ch == ' ' || ch == '\t' || ch == '\n' || ch == '\x0b' || ch == '\x0c' || ch == '\r'

/-- The value of a decimal digit. -/
def digitVal (ch : Char) : Int := (ch.toNat : Int) - 48

/-- The value of a run of decimal digits. -/
def digitsVal (ds : List Char) : Int := ds.foldl (fun a d => a * 10 + digitVal d) 0

/-- An input stream: the characters not yet consumed and the fail bit. -/
structure IStream where
  rest : List Char
  failed : Bool
deriving DecidableEq

/-- The extraction `in >> x` for an `int` variable holding `x`: the new stream state and the
new value of the variable.  A stream that has failed is left alone, and so is the variable.
Otherwise leading white space is skipped; at the end of the input the stream fails and the
variable keeps its value; an optional sign and the longest run of digits are consumed; with no
digit the variable becomes 0 and the stream fails; a value outside the 32-bit range is clamped
and the stream fails. -/
def extractInt (s : IStream) (x : Int) : IStream × Int :=
  if s.failed then (s, x)
  else
    match s.rest.dropWhile isSpace with
    | [] => ({ rest := [], failed := true }, x)
    | ch :: cs =>
      let body := if ch == '-' || ch == '+' then cs else ch :: cs
      let ds := body.takeWhile Char.isDigit
      let rest := body.dropWhile Char.isDigit
      if ds.isEmpty then ({ rest := rest, failed := true }, 0)
      else
        let v := if ch == '-' then - digitsVal ds else digitsVal ds
        if v > intMax then ({ rest := rest, failed := true }, intMax)
        else if v < intMin then ({ rest := rest, failed := true }, intMin)
        else ({ rest := rest, failed := false }, v)

/-! ## Saving and loading -/

/-- One grid as `saveToFile` writes it: each entry as 1 or 0 followed by a blank, each row
followed by a newline. -/
def putGrid (g : List (List Bool)) : List Char :=
  (g.map fun row => (row.map fun b => putInt (if b then 1 else 0) ++ [' ']).flatten ++ ['\n']).flatten

/-- The local state of `loadFromFile` while it reads the grids: the board, the stream `in`
and the variable `val`. -/
structure Loader where
  board : Board
  input : IStream
  val : Int

namespace Board

/-- The characters `saveToFile` writes to the file, from the header line to the flagged grid. -/
def saveText (b : Board) : List Char :=
  putInt b.rows ++ [' '] ++ putInt b.cols ++ [' '] ++ putInt b.totalMines ++ ['\n'] ++
    putGrid b.mine ++ putGrid b.revealed ++ putGrid b.flagged

/-- `Board::saveToFile`, after the file name is settled: `writable` tells whether the output
file could be opened.  The result is the content of the file, `none` when the function
reports failure. -/
def saveToFile (b : Board) (writable : Bool) : Option (List Char) :=
  if !writable then none else some b.saveText

/-- The first reading loop of `loadFromFile`: `in >> val; mine[r][c] = (val == 1);` for every
cell in row-major order. -/
def readMine (l : Loader) : Loader :=
  forRange l.board.rows (fun l r =>
    forRange l.board.cols (fun l c =>
      let (i, v) := extractInt l.input l.val
      { board := { l.board with mine := setCell l.board.mine r c (decide (v = 1)) },
        input := i, val := v }) l) l

/-- The second reading loop of `loadFromFile`: `in >> val; revealed[r][c] = (val == 1);`. -/
def readRevealed (l : Loader) : Loader :=
  forRange l.board.rows (fun l r =>
    forRange l.board.cols (fun l c =>
      let (i, v) := extractInt l.input l.val
      { board := { l.board with revealed := setCell l.board.revealed r c (decide (v = 1)) },
        input := i, val := v }) l) l

/-- The third reading loop of `loadFromFile`: `in >> val; flagged[r][c] = (val == 1);`. -/
def readFlagged (l : Loader) : Loader :=
  forRange l.board.rows (fun l r =>
    forRange l.board.cols (fun l c =>
      let (i, v) := extractInt l.input l.val
      { board := { l.board with flagged := setCell l.board.flagged r c (decide (v = 1)) },
        input := i, val := v }) l) l

/-- `Board::loadFromFile`.  `file` is the content of the file, `none` when it cannot be
opened; `val0` is what the uninitialised variable `val` holds.  The result is the returned
boolean with the board afterwards; it is `none` when the construction of a vector of negative
size throws.  The `flagged` grid is not among the grids the function assigns anew. -/
def loadFromFile (b : Board) (file : Option (List Char)) (val0 : Int) : Option (Bool × Board) :=
  match file with
  | none => some (false, b)
  | some text =>
    let in0 : IStream := { rest := text, failed := false }
    let (in1, rows) := extractInt in0 b.rows
    let (in2, cols) := extractInt in1 b.cols
    let (in3, totalMines) := extractInt in2 b.totalMines
    let b1 : Board := { b with rows := rows, cols := cols, totalMines := totalMines }
    if in3.failed then some (false, b1)
    else if b1.rows < 0 ∨ b1.cols < 0 then none
    else
      let b2 : Board := { b1 with
        mine := mkGrid b1.rows b1.cols false
        revealed := mkGrid b1.rows b1.cols false
        neighbors := mkGrid b1.rows b1.cols 0 }
      let l3 := readFlagged (readRevealed (readMine { board := b2, input := in3, val := val0 }))
      some (true, { l3.board.countNeighbors with lost := false })

end Board

/-- The eight offsets to the cells adjacent to a cell: horizontally, vertically, diagonally. -/
def adjacentOffsets : List (Int × Int) :=
  [(-1, -1), (-1, 0), (-1, 1), (0, -1), (0, 1), (1, -1), (1, 0), (1, 1)]

/-- The number of cells among the eight adjacent to `(r, c)` that lie on the board and hold a
mine: the neighbour count as the glossary defines it. -/
def adjacentMines (b : Board) (r c : Int) : Int :=
  ((adjacentOffsets.filter fun d =>
    b.inBounds (r + d.1) (c + d.2) && cellAt false b.mine (r + d.1) (c + d.2)).length : Int)

/-- One turn of a reading loop of `loadFromFile` on the grid being filled:
`in >> val; grid[r][c] = (val == 1);`. -/
def readCell (st : List (List Bool) × IStream × Int) (r c : Int) :
    List (List Bool) × IStream × Int :=
  (setCell st.1 r c (decide ((extractInt st.2.1 st.2.2).2 = 1)),
    (extractInt st.2.1 st.2.2).1, (extractInt st.2.1 st.2.2).2)

/-- A reading loop of `loadFromFile` on the grid being filled. -/
def readCells (rows cols : Int) (st : List (List Bool) × IStream × Int) :
    List (List Bool) × IStream × Int :=
  forRange rows (fun st r => forRange cols (fun st c => readCell st r c) st) st

/-- The stream and the variable after `k` extractions `in >> val`. -/
def runExtract : Nat → IStream × Int → IStream × Int
  | 0, st => st
  | k + 1, st => extractInt (runExtract k st).1 (runExtract k st).2

/-- The header extraction `in >> rows >> cols >> totalMines` of `loadFromFile`: the stream
afterwards and the three values. -/
def readHeader (b : Board) (text : List Char) : IStream × Int × Int × Int :=
  let h1 := extractInt { rest := text, failed := false } b.rows
  let h2 := extractInt h1.1 b.cols
  let h3 := extractInt h2.1 b.totalMines
  (h3.1, h1.2, h2.2, h3.2)

/-- The board a successful load produces, given the header values, the stream after the
header, the old `flagged` grid and `lost` flag. -/
def Board.loadedBoard (rows cols totalMines : Int) (input : IStream) (val0 : Int)
    (flagged : List (List Bool)) : Board :=
  { Board.countNeighbors
    { rows := rows
      cols := cols
      totalMines := totalMines
      lost := false
      mine := (readCells rows cols (mkGrid rows cols false, input, val0)).1
      revealed := (readCells rows cols (mkGrid rows cols false,
        (readCells rows cols (mkGrid rows cols false, input, val0)).2)).1
      neighbors := mkGrid rows cols 0
      flagged := (readCells rows cols (flagged,
        (readCells rows cols (mkGrid rows cols false,
          (readCells rows cols (mkGrid rows cols false, input, val0)).2)).2)).1 }
    with lost := false }

/-- The board `Board(6, 6, 6)` of the session loop when the shuffle leaves the indices in
order: the six mines fill the first row. -/
def defaultBoard : Board :=
  Board.new 6 6 6 ((List.range 36).map Int.ofNat)

/-- A well-formed save of a 2 x 2 board with one mine, at `a1`. -/
def smallSave : List Char :=
  "2 2 1\n1 0 \n0 0 \n0 0 \n0 0 \n0 0 \n0 0 \n".toList

/-- A file whose third header field is not an integer. -/
def badHeaderFile : List Char := "9 9 x".toList

/-- A save of a 1 x 1 board in which the token of the mine cell is 2 and the token of the
revealed cell is 1. -/
def tinySave : List Char := "1 1 0\n2 \n1 \n0 \n".toList

/-- The board that loading `tinySave` into `tinyBoard` yields. -/
def tinyLoaded : Board :=
  { rows := 1, cols := 1, totalMines := 0, lost := false, mine := [[false]],
    revealed := [[true]], neighbors := [[0]], flagged := [[false]] }

/-- A 1 x 1 board without a mine. -/
def tinyBoard : Board :=
  { rows := 1, cols := 1, totalMines := 0, lost := false, mine := [[false]],
    revealed := [[false]], neighbors := [[0]], flagged := [[false]] }

/-- A value of type `int`. -/
def IsInt32 (n : Int) : Prop := intMin ≤ n ∧ n ≤ intMax

instance (n : Int) : Decidable (IsInt32 n) := by
  unfold IsInt32; infer_instance

/-- The text consists of the integers `ts` in decimal, each followed by a white-space
character, with more white space allowed before each; what follows the last is free. -/
inductive TokenText : List Int → List Char → Prop where
  | done (text : List Char) : TokenText [] text
  | skip (w : Char) (ts : List Int) (text : List Char) :
      isSpace w = true → TokenText ts text → TokenText ts (w :: text)
  | tok (t : Int) (w : Char) (ts : List Int) (text : List Char) :
      IsInt32 t → isSpace w = true → TokenText ts text →
      TokenText (t :: ts) (putInt t ++ w :: text)

/-- The entries of a grid in row-major order, as the integers `saveToFile` prints. -/
def gridBits (g : List (List Bool)) : List Int :=
  g.flatten.map fun b => if b then 1 else 0

/-- A 3 x 3 board with one mine, at `a1`, nothing revealed or flagged. -/
def sampleBoard : Board :=
  { rows := 3, cols := 3, totalMines := 1, lost := false,
    mine := [[true, false, false], [false, false, false], [false, false, false]],
    revealed := [[false, false, false], [false, false, false], [false, false, false]],
    neighbors := [[0, 1, 0], [1, 1, 0], [0, 0, 0]],
    flagged := [[false, false, false], [false, false, false], [false, false, false]] }

/-! ## Games -/

/-- One call of the session on the board: `revealCell(r, c)` or `toggleFlag(r, c)`. -/
inductive Move where
  | reveal (r c : Int)
  | flag (r c : Int)
deriving DecidableEq

/-- The board after one call. -/
def Board.step (b : Board) : Move → Board
  | Move.reveal r c => b.revealCell r c
  | Move.flag r c => b.toggleFlag r c

/-- The board after a sequence of calls, first call first. -/
def Board.play (b : Board) (ms : List Move) : Board :=
  ms.foldl Board.step b

/-- A board as the constructor builds it from valid arguments, for some outcome of the
shuffle. -/
def Fresh (b : Board) : Prop :=
  ∃ (rows cols mines : Int) (idx : List Int),
    0 < rows ∧ 0 < cols ∧ 0 ≤ mines ∧ mines ≤ rows * cols ∧
    idx.Perm ((List.range (rows * cols).toNat).map Int.ofNat) ∧
    b = Board.new rows cols mines idx

/-- A board state reachable from a freshly constructed board by a sequence of `revealCell`
and `toggleFlag` calls. -/
def Reachable (b : Board) : Prop :=
  ∃ (b0 : Board) (ms : List Move), Fresh b0 ∧ b = b0.play ms

/-- The 1 x 1 board whose only cell is a mine. -/
def mineOnlyBoard : Board := Board.new 1 1 1 [0]

/-- The 1 x 2 board with a mine in both cells. -/
def twoMineBoard : Board := Board.new 1 2 2 [0, 1]


/-- What holds in every state of a game: the grids keep their dimensions, a revealed mine
means the game is lost, and a cell both flagged and revealed is a mine of a lost game. -/
def Board.GameInv (b : Board) : Prop :=
  b.WellFormed ∧
  (∀ i j, b.inBounds i j = true → cellAt false b.mine i j = true →
    cellAt false b.revealed i j = true → b.lost = true) ∧
  (∀ i j, b.inBounds i j = true → cellAt false b.flagged i j = true →
    cellAt false b.revealed i j = true → cellAt false b.mine i j = true ∧ b.lost = true)


/-! ## Lines and tokens of a text -/

/-- The text made of the given lines, each followed by a newline. -/
def unlines (ls : List (List Char)) : List Char :=
  (ls.map fun l => l ++ ['\n']).flatten

/-- The white-space-separated tokens of a text, `cur` being the token under way. -/
def wordsAux : List Char → List Char → List (List Char)
  | [], cur => if cur.isEmpty then [] else [cur]
  | ch :: cs, cur =>
    if isSpace ch then
      if cur.isEmpty then wordsAux cs [] else cur :: wordsAux cs []
    else wordsAux cs (cur ++ [ch])

/-- The white-space-separated tokens of a text. -/
def wordsOf (text : List Char) : List (List Char) := wordsAux text []

/-- The token for a grid entry: `1` for true, `0` for false. -/
def bitWord (b : Bool) : List Char := if b then ['1'] else ['0']


/-! ## Coordinates

Strings are lists of characters.  A character outside ASCII stands for its bytes, none of
which is a letter, a digit, a sign or white space in the classic locale, so it is treated as
one more character of no class. -/

/-- The exceptions `std::stoi` throws. -/
inductive StoiError where
  | invalidArgument
  | outOfRange
deriving DecidableEq

/-- The conversion `std::stoi(t)` in base 10: leading white space is skipped, an optional sign
and the longest run of digits are converted and whatever follows is ignored.  Without a digit
it throws `std::invalid_argument`, outside the range of `int` it throws `std::out_of_range`. -/
def stoi (t : List Char) : Except StoiError Int :=
  match t.dropWhile isSpace with
  | [] => Except.error StoiError.invalidArgument
  | ch :: cs =>
    let body := if ch == '-' || ch == '+' then cs else ch :: cs
    let ds := body.takeWhile Char.isDigit
    if ds.isEmpty then Except.error StoiError.invalidArgument
    else
      let v := if ch == '-' then - digitsVal ds else digitsVal ds
      if v > intMax ∨ v < intMin then Except.error StoiError.outOfRange else Except.ok v

/-- The function `parseCoord(s, r, c)`: the returned boolean and the values of the reference
parameters `r` and `c` afterwards.  `std::isalpha` and `std::tolower` are those of the classic
locale. -/
def parseCoord (s : List Char) (r c : Int) : Bool × Int × Int :=
  if s.length < 2 then (false, r, c)
  else
    match s with
    | [] => (false, r, c)
    | uc :: rest =>
      if !uc.isAlpha then (false, r, c)
      else
        let ch := uc.toLower
        if ch < 'a' ∨ ch > 'z' then (false, r, c)
        else
          let r1 : Int := (ch.toNat : Int) - ('a'.toNat : Int)
          match stoi rest with
          | Except.ok val => if val < 1 then (false, r1, c) else (true, r1, val - 1)
          | Except.error _ => (false, r1, c)

/-- An ASCII letter, upper or lower case. -/
def IsLetter (L : Char) : Prop := ('a' ≤ L ∧ L ≤ 'z') ∨ ('A' ≤ L ∧ L ≤ 'Z')

instance (L : Char) : Decidable (IsLetter L) := by
  unfold IsLetter; infer_instance

/-- The zero-based position of a letter in the alphabet, ignoring case. -/
def alphabetPos (L : Char) : Int :=
  if 'a' ≤ L ∧ L ≤ 'z' then (L.toNat : Int) - ('a'.toNat : Int)
  else (L.toNat : Int) - ('A'.toNat : Int)

/-- The text begins, after optional white space and an optional plus sign, with a run of
digits whose value is between 1 and the largest `int`; the run ends where the text ends or at
a character that is not a digit. -/
def LeadingPositiveInt (t : List Char) : Prop :=
  ∃ ws sign ds rest : List Char,
    t = ws ++ (sign ++ (ds ++ rest)) ∧ (∀ w ∈ ws, isSpace w = true) ∧
    (sign = [] ∨ sign = ['+']) ∧ ds ≠ [] ∧ (∀ d ∈ ds, d.isDigit = true) ∧
    (∀ x ∈ rest.head?, x.isDigit = false) ∧ 1 ≤ digitsVal ds ∧ digitsVal ds ≤ intMax


/-! ## Loops and grids: general lemmas -/

theorem forRange_induct {σ : Type} (P : Int → σ → Prop) (n : Int) (body : σ → Int → σ) (s : σ)
    (h0 : P 0 s) (hs : ∀ i s, 0 ≤ i → i < n → P i s → P (i + 1) (body s i)) :
    P (max n 0) (forRange n body s) := by
  have key : ∀ m : Nat, m ≤ n.toNat →
      P (m : Int) ((List.range m).foldl (fun s (i : Nat) => body s (i : Int)) s) := by
    intro m
    induction m with
    | zero => intro _; simpa using h0
    | succ k ih =>
      intro hk
      rw [List.range_succ, List.foldl_append]
      simp only [List.foldl_cons, List.foldl_nil]
      have := hs (k : Int) _ (by omega) (by omega) (ih (by omega))
      simpa using this
  have h := key n.toNat le_rfl
  have e : ((n.toNat : Nat) : Int) = max n 0 := by omega
  rw [e] at h
  exact h

theorem forRange_sim {σ τ : Type} (R : σ → τ → Prop) (n : Int) (f : σ → Int → σ)
    (g : τ → Int → τ) (s : σ) (t : τ) (h0 : R s t)
    (hs : ∀ i s t, 0 ≤ i → i < n → R s t → R (f s i) (g t i)) :
    R (forRange n f s) (forRange n g t) := by
  have key : ∀ m : Nat, m ≤ n.toNat →
      R ((List.range m).foldl (fun s (i : Nat) => f s (i : Int)) s)
        ((List.range m).foldl (fun s (i : Nat) => g s (i : Int)) t) := by
    intro m
    induction m with
    | zero => intro _; simpa using h0
    | succ k ih =>
      intro hk
      rw [List.range_succ, List.foldl_append, List.foldl_append]
      simp only [List.foldl_cons, List.foldl_nil]
      exact hs (k : Int) _ _ (by omega) (by omega) (ih (by omega))
  exact key n.toNat le_rfl

theorem cellAt_setCell {α : Type} (d : α) (g : List (List α)) (r c i j : Int) (v : α) :
    cellAt d (setCell g r c v) i j =
      if i = r ∧ j = c ∧ 0 ≤ r ∧ r < g.length ∧ 0 ≤ c ∧ c < ((g.getD r.toNat []).length : Int)
      then v else cellAt d g i j := by
  unfold cellAt setCell
  by_cases hr : r < 0
  · have : ¬ (0 ≤ r) := by omega
    simp [hr, this]
  by_cases hc : c < 0
  · have : ¬ (0 ≤ c) := by omega
    simp [hc, this]
  by_cases hi : i < 0
  · have : i ≠ r := by omega
    simp [hi, this]
  by_cases hj : j < 0
  · have : j ≠ c := by omega
    simp [hj, this]
  have h0r : 0 ≤ r := by omega
  have h0c : 0 ≤ c := by omega
  simp only [hr, hc, hi, hj, or_self, if_false, h0r, h0c, true_and, List.getD_eq_getElem?_getD]
  by_cases hir : i = r
  · subst hir
    by_cases hlen : i < g.length
    · have hl : i.toNat < g.length := by omega
      simp only [List.getElem?_set, hl, if_true, true_and, Option.getD_some, hlen]
      rw [List.getElem?_eq_getElem hl]
      simp only [Option.getD_some]
      by_cases hjc : j = c
      · subst hjc
        simp only [true_and, if_true]
        by_cases hlc : j < ((g[i.toNat]).length : Int)
        · have hl2 : j.toNat < (g[i.toNat]).length := by omega
          simp [hlc, hl2]
        · have hl2 : (g[i.toNat]).length ≤ j.toNat := by omega
          have hl3 : ¬ j.toNat < (g[i.toNat]).length := by omega
          simp [hlc, hl3, List.getElem?_eq_none hl2]
      · have hne : ¬ c.toNat = j.toNat := by omega
        simp [hjc, hne]
    · have hl : g.length ≤ i.toNat := by omega
      simp [hlen, List.set_eq_of_length_le hl]
  · have hne : r.toNat ≠ i.toNat := by omega
    simp [hir, List.getElem?_set_ne hne]

theorem isGrid_setCell {α : Type} {g : List (List α)} {rows cols : Int} (h : IsGrid g rows cols)
    (r c : Int) (v : α) : IsGrid (setCell g r c v) rows cols := by
  unfold setCell
  split
  · exact h
  · obtain ⟨h1, h2⟩ := h
    refine ⟨by simpa using h1, ?_⟩
    intro row hrow
    rcases List.mem_or_eq_of_mem_set hrow with hm | he
    · exact h2 row hm
    · subst he
      simp only [List.length_set, List.getD_eq_getElem?_getD]
      cases hg : g[r.toNat]? with
      | none =>
        have hlen : g.length ≤ r.toNat := List.getElem?_eq_none_iff.mp hg
        rw [List.set_eq_of_length_le hlen] at hrow
        have := h2 _ hrow
        simpa [hg] using this
      | some row0 => simpa using h2 row0 (List.getElem?_mem hg)

/-- In a `rows` x `cols` grid the row of an in-range index has `cols` entries. -/
theorem isGrid_row_length {α : Type} {g : List (List α)} {rows cols : Int}
    (h : IsGrid g rows cols) {r : Int} (h0 : 0 ≤ r) (h1 : r < rows) :
    ((g.getD r.toNat []).length : Int) = cols := by
  obtain ⟨hl, hr⟩ := h
  have hlt : r.toNat < g.length := by omega
  simp only [List.getD_eq_getElem?_getD, List.getElem?_eq_getElem hlt, Option.getD_some]
  exact hr _ (List.getElem_mem hlt)

theorem cellAt_setCell_of_isGrid {α : Type} {g : List (List α)} {rows cols : Int}
    (h : IsGrid g rows cols) (d : α) (r c i j : Int) (v : α)
    (hr0 : 0 ≤ r) (hr1 : r < rows) (hc0 : 0 ≤ c) (hc1 : c < cols) :
    cellAt d (setCell g r c v) i j = if i = r ∧ j = c then v else cellAt d g i j := by
  rw [cellAt_setCell]
  have := isGrid_row_length h hr0 hr1
  have hl := h.1
  by_cases hij : i = r ∧ j = c
  · rw [if_pos ⟨hij.1, hij.2, hr0, by omega, hc0, by omega⟩, if_pos hij]
  · rw [if_neg (fun hh => hij ⟨hh.1, hh.2.1⟩), if_neg hij]

theorem fillGrid_spec {α : Type} (d : α) (rows cols : Int) (F : Int → Int → Option α)
    (g : List (List α)) (hg : IsGrid g rows cols) :
    IsGrid (fillGrid rows cols F g) rows cols ∧
    ∀ i j, cellAt d (fillGrid rows cols F g) i j =
      if 0 ≤ i ∧ i < rows ∧ 0 ≤ j ∧ j < cols then (F i j).getD (cellAt d g i j)
      else cellAt d g i j := by
  have hrows : 0 ≤ rows := by have := hg.1; omega
  -- invariant of the outer loop: the rows before `R` are done
  have outer := forRange_induct
    (fun R (s : List (List α)) => IsGrid s rows cols ∧ ∀ i j, cellAt d s i j =
      if 0 ≤ i ∧ i < R ∧ 0 ≤ j ∧ j < cols then (F i j).getD (cellAt d g i j)
      else cellAt d g i j)
    rows
    (fun g r => forRange cols (fun g c =>
      match F r c with
      | some v => setCell g r c v
      | none => g) g) g
    ⟨hg, by intro i j; rw [if_neg (by omega)]⟩
    (by
      intro R s hR0 hR1 hinv
      -- invariant of the inner loop: row `R` is done before column `C`
      have inner := forRange_induct
        (fun C (t : List (List α)) => IsGrid t rows cols ∧ ∀ i j, cellAt d t i j =
          if 0 ≤ i ∧ (i < R ∨ (i = R ∧ j < C)) ∧ 0 ≤ j ∧ j < cols
          then (F i j).getD (cellAt d g i j) else cellAt d g i j)
        cols
        (fun g c =>
          match F R c with
          | some v => setCell g R c v
          | none => g) s
        ⟨hinv.1, by
          intro i j
          rw [hinv.2 i j]
          by_cases h : 0 ≤ i ∧ i < R ∧ 0 ≤ j ∧ j < cols
          · rw [if_pos h, if_pos ⟨h.1, Or.inl h.2.1, h.2.2⟩]
          · rw [if_neg h, if_neg (by omega)]⟩
        (by
          intro C t hC0 hC1 ht
          cases hF : F R C with
          | none =>
            simp only [hF]
            refine ⟨ht.1, ?_⟩
            intro i j
            rw [ht.2 i j]
            by_cases hij : i = R ∧ j = C
            · obtain ⟨rfl, rfl⟩ := hij
              rw [if_neg (by omega), if_pos (by omega), hF]; rfl
            · by_cases h : 0 ≤ i ∧ (i < R ∨ (i = R ∧ j < C)) ∧ 0 ≤ j ∧ j < cols
              · rw [if_pos h, if_pos (by omega)]
              · rw [if_neg h, if_neg (by omega)]
          | some v =>
            simp only [hF]
            refine ⟨isGrid_setCell ht.1 _ _ _, ?_⟩
            intro i j
            rw [cellAt_setCell_of_isGrid ht.1 d R C i j v hR0 hR1 hC0 hC1, ht.2 i j]
            by_cases hij : i = R ∧ j = C
            · obtain ⟨rfl, rfl⟩ := hij
              rw [if_pos ⟨rfl, rfl⟩, if_pos (by omega), hF]; rfl
            · rw [if_neg hij]
              by_cases h : 0 ≤ i ∧ (i < R ∨ (i = R ∧ j < C)) ∧ 0 ≤ j ∧ j < cols
              · rw [if_pos h, if_pos (by omega)]
              · rw [if_neg h, if_neg (by omega)])
      refine ⟨inner.1, ?_⟩
      intro i j
      rw [inner.2 i j]
      have hcols : 0 ≤ cols ∨ cols < 0 := by omega
      by_cases h : 0 ≤ i ∧ (i < R ∨ (i = R ∧ j < max cols 0)) ∧ 0 ≤ j ∧ j < cols
      · rw [if_pos h, if_pos (by omega)]
      · rw [if_neg h, if_neg (by omega)])
  refine ⟨outer.1, ?_⟩
  intro i j
  have h2 := outer.2 i j
  unfold fillGrid
  rw [h2]
  by_cases h : 0 ≤ i ∧ i < rows ∧ 0 ≤ j ∧ j < cols
  · rw [if_pos h, if_pos (by omega)]
  · rw [if_neg h, if_neg (by omega)]

namespace Board

theorem revealAllMines_eq (b : Board) :
    b.revealAllMines = { b with revealed := (fillGrid b.rows b.cols
      (fun r c => if cellAt false b.mine r c then some true else none) b.revealed) } := by
  unfold revealAllMines fillGrid
  refine forRange_sim (fun (s : Board) (t : List (List Bool)) => s = { b with revealed := t })
    b.rows _ _ b b.revealed rfl ?_
  intro r s t _ _ hst
  subst hst
  refine forRange_sim (fun (s : Board) (t : List (List Bool)) => s = { b with revealed := t })
    b.cols _ _ _ t rfl ?_
  intro c s t _ _ hst
  subst hst
  simp only []
  split <;> simp_all

theorem inBounds_iff (b : Board) (r c : Int) :
    b.inBounds r c = true ↔ 0 ≤ r ∧ r < b.rows ∧ 0 ≤ c ∧ c < b.cols := by
  unfold inBounds
  simp only [Bool.and_eq_true, decide_eq_true_eq, ge_iff_le]
  tauto

theorem revealCell_of_guard (b : Board) (r c : Int)
    (h : b.inBounds r c = false ∨ cellAt false b.revealed r c = true ∨
      cellAt false b.flagged r c = true) : b.revealCell r c = b := by
  unfold revealCell
  rw [if_pos]
  rcases h with h | h | h <;> simp [h]

theorem revealCell_of_safe (b : Board) (r c : Int) (hin : b.inBounds r c = true)
    (hr : cellAt false b.revealed r c = false) (hf : cellAt false b.flagged r c = false)
    (hm : cellAt false b.mine r c = false) :
    b.revealCell r c = { b with revealed := setCell b.revealed r c true } := by
  unfold revealCell
  simp [hin, hr, hf, hm]

theorem revealCell_of_mine (b : Board) (r c : Int) (hin : b.inBounds r c = true)
    (hr : cellAt false b.revealed r c = false) (hf : cellAt false b.flagged r c = false)
    (hm : cellAt false b.mine r c = true) :
    b.revealCell r c = { b with
      lost := true
      revealed := (fillGrid b.rows b.cols
        (fun i j => if cellAt false b.mine i j then some true else none)
        (setCell b.revealed r c true)) } := by
  unfold revealCell
  simp [hin, hr, hf, hm, revealAllMines_eq]

theorem isWin_iff (b : Board) :
    b.isWin = true ↔
      ∀ r c : Int, b.inBounds r c = true → cellAt false b.mine r c = false →
        cellAt false b.revealed r c = true := by
  unfold isWin
  simp only [List.all_eq_true, List.mem_range, Bool.not_eq_true', Bool.and_eq_false_imp,
    Bool.not_eq_true, Bool.not_eq_false', inBounds_iff]
  constructor
  · intro h r c ⟨h1, h2, h3, h4⟩ hm
    have := h r.toNat (by omega) c.toNat (by omega)
    rw [Int.toNat_of_nonneg h1, Int.toNat_of_nonneg h3] at this
    exact this hm
  · intro h r hr c hc hm
    exact h r c ⟨by omega, by omega, by omega, by omega⟩ hm

end Board

/-! ## Revealing a cell -/

/-- C1: on a well-formed board, revealing an in-bounds mine cell that is neither revealed nor
flagged sets `lost`, leaves `revealed` true at every mine cell of the board, keeps the
`revealed` value of every non-mine cell, and leaves `mine` and `flagged` unchanged. -/
theorem revealCell_mine_reveals_all_mines (b : Board) (r c : Int) (hwf : b.WellFormed)
    (hin : b.inBounds r c = true) (hm : cellAt false b.mine r c = true)
    (hr : cellAt false b.revealed r c = false) (hf : cellAt false b.flagged r c = false) :
    (b.revealCell r c).lost = true ∧
    (∀ i j, b.inBounds i j = true → cellAt false b.mine i j = true →
      cellAt false (b.revealCell r c).revealed i j = true) ∧
    (∀ i j, b.inBounds i j = true → cellAt false b.mine i j = false →
      cellAt false (b.revealCell r c).revealed i j = cellAt false b.revealed i j) ∧
    (b.revealCell r c).mine = b.mine ∧ (b.revealCell r c).flagged = b.flagged := by
  rw [Board.revealCell_of_mine b r c hin hr hf hm]
  obtain ⟨h1, h2, h3, h4⟩ := (Board.inBounds_iff b r c).mp hin
  have hg := isGrid_setCell hwf.2.1 r c true
  have hspec := (fillGrid_spec false b.rows b.cols
    (fun i j => if cellAt false b.mine i j then some true else none) _ hg).2
  refine ⟨rfl, ?_, ?_, rfl, rfl⟩
  · intro i j hij hmij
    have hb := (Board.inBounds_iff b i j).mp hij
    simp only []
    rw [hspec i j, if_pos hb, hmij]
    rfl
  · intro i j hij hmij
    have hb := (Board.inBounds_iff b i j).mp hij
    simp only []
    rw [hspec i j, if_pos hb, hmij]
    simp only [Bool.false_eq_true, if_false, Option.getD_none]
    rw [cellAt_setCell_of_isGrid hwf.2.1 false r c i j true h1 h2 h3 h4, if_neg]
    rintro ⟨rfl, rfl⟩
    rw [hm] at hmij
    exact Bool.noConfusion hmij

/-- Witness for C1: the mine at `a1` of the sample board. -/
theorem revealCell_mine_reveals_all_mines_witness :
    (sampleBoard.revealCell 0 0).lost = true ∧
    (∀ i j, sampleBoard.inBounds i j = true → cellAt false sampleBoard.mine i j = true →
      cellAt false (sampleBoard.revealCell 0 0).revealed i j = true) ∧
    (∀ i j, sampleBoard.inBounds i j = true → cellAt false sampleBoard.mine i j = false →
      cellAt false (sampleBoard.revealCell 0 0).revealed i j =
        cellAt false sampleBoard.revealed i j) ∧
    (sampleBoard.revealCell 0 0).mine = sampleBoard.mine ∧
    (sampleBoard.revealCell 0 0).flagged = sampleBoard.flagged :=
  revealCell_mine_reveals_all_mines sampleBoard 0 0 (by decide) (by decide) (by decide)
    (by decide) (by decide)

/-- C2: if `(r, c)` is out of bounds, or the cell is already revealed, or it is flagged, then
`revealCell` returns the board as it was: every field is unchanged.  The operation is a total
function, it has no error outcome. -/
theorem revealCell_noop (b : Board) (r c : Int)
    (h : b.inBounds r c = false ∨ cellAt false b.revealed r c = true ∨
      cellAt false b.flagged r c = true) : b.revealCell r c = b :=
  Board.revealCell_of_guard b r c h

/-- Witness for C2: a cell outside the sample board. -/
theorem revealCell_noop_witness : sampleBoard.revealCell 3 (-1) = sampleBoard :=
  revealCell_noop sampleBoard 3 (-1) (Or.inl (by decide))

/-- C3: `revealCell` does not cascade.  On a well-formed board, for an in-bounds cell that is
not revealed, not flagged and not a mine (whatever its neighbour count), the result is the
board with `revealed[r][c]` set to true: that entry is true, every other entry of `revealed`
is as before, the grid keeps its dimensions, and all other fields are unchanged. -/
theorem revealCell_safe_no_cascade (b : Board) (r c : Int) (hwf : b.WellFormed)
    (hin : b.inBounds r c = true) (hr : cellAt false b.revealed r c = false)
    (hf : cellAt false b.flagged r c = false) (hm : cellAt false b.mine r c = false) :
    cellAt false (b.revealCell r c).revealed r c = true ∧
    (∀ i j, ¬ (i = r ∧ j = c) →
      cellAt false (b.revealCell r c).revealed i j = cellAt false b.revealed i j) ∧
    IsGrid (b.revealCell r c).revealed b.rows b.cols ∧
    (b.revealCell r c).mine = b.mine ∧ (b.revealCell r c).flagged = b.flagged ∧
    (b.revealCell r c).neighbors = b.neighbors ∧ (b.revealCell r c).lost = b.lost ∧
    (b.revealCell r c).rows = b.rows ∧ (b.revealCell r c).cols = b.cols ∧
    (b.revealCell r c).totalMines = b.totalMines := by
  rw [Board.revealCell_of_safe b r c hin hr hf hm]
  obtain ⟨h1, h2, h3, h4⟩ := (Board.inBounds_iff b r c).mp hin
  refine ⟨?_, ?_, isGrid_setCell hwf.2.1 r c true, rfl, rfl, rfl, rfl, rfl, rfl, rfl⟩
  · simp only []
    rw [cellAt_setCell_of_isGrid hwf.2.1 false r c r c true h1 h2 h3 h4, if_pos ⟨rfl, rfl⟩]
  · intro i j hij
    simp only []
    rw [cellAt_setCell_of_isGrid hwf.2.1 false r c i j true h1 h2 h3 h4, if_neg hij]

/-- Witness for C3: the cell `c3` of the sample board, whose neighbour count is 0. -/
theorem revealCell_safe_no_cascade_witness :
    cellAt 0 sampleBoard.neighbors 2 2 = 0 ∧
    cellAt false (sampleBoard.revealCell 2 2).revealed 2 2 = true ∧
    (∀ i j, ¬ (i = 2 ∧ j = 2) →
      cellAt false (sampleBoard.revealCell 2 2).revealed i j =
        cellAt false sampleBoard.revealed i j) ∧
    IsGrid (sampleBoard.revealCell 2 2).revealed sampleBoard.rows sampleBoard.cols ∧
    (sampleBoard.revealCell 2 2).mine = sampleBoard.mine ∧
    (sampleBoard.revealCell 2 2).flagged = sampleBoard.flagged ∧
    (sampleBoard.revealCell 2 2).neighbors = sampleBoard.neighbors ∧
    (sampleBoard.revealCell 2 2).lost = sampleBoard.lost ∧
    (sampleBoard.revealCell 2 2).rows = sampleBoard.rows ∧
    (sampleBoard.revealCell 2 2).cols = sampleBoard.cols ∧
    (sampleBoard.revealCell 2 2).totalMines = sampleBoard.totalMines :=
  ⟨by decide, revealCell_safe_no_cascade sampleBoard 2 2 (by decide) (by decide) (by decide)
    (by decide) (by decide)⟩

/-! ## Win and loss -/

/-- C4: `isWin` is true exactly when every in-bounds cell that is not a mine is revealed.
Hence two boards with the same dimensions and mines whose `revealed` grids agree on the
non-mine cells have the same `isWin`, whatever their `flagged`, `lost`, `neighbors`,
`totalMines` and the `revealed` entries of their mine cells.  `isLost` is the stored flag. -/
theorem isWin_iff_all_safe_revealed (b : Board) :
    (b.isWin = true ↔
      ∀ r c : Int, b.inBounds r c = true → cellAt false b.mine r c = false →
        cellAt false b.revealed r c = true) ∧
    (∀ b2 : Board, b2.rows = b.rows → b2.cols = b.cols → b2.mine = b.mine →
      (∀ r c : Int, b.inBounds r c = true → cellAt false b.mine r c = false →
        cellAt false b2.revealed r c = cellAt false b.revealed r c) →
      b2.isWin = b.isWin) ∧
    b.isLost = b.lost := by
  refine ⟨Board.isWin_iff b, ?_, rfl⟩
  intro b2 hr hc hm hrev
  have hin : ∀ r c, b2.inBounds r c = b.inBounds r c := by
    intro r c; unfold Board.inBounds; rw [hr, hc]
  rw [Bool.eq_iff_iff, Board.isWin_iff b, Board.isWin_iff b2]
  constructor
  · intro h r c h1 h2
    rw [← hrev r c h1 h2]
    exact h r c (by rw [hin]; exact h1) (by rw [hm]; exact h2)
  · intro h r c h1 h2
    rw [hin] at h1
    rw [hm] at h2
    rw [hrev r c h1 h2]
    exact h r c h1 h2

/-! ## Construction -/

theorem countTrue_set_aux (c : Nat) :
    ∀ (g : List (List Bool)) (r : Nat), r < g.length → c < (g.getD r []).length →
      (g.getD r []).getD c false = false →
      countTrue (g.set r ((g.getD r []).set c true)) = countTrue g + 1 := by
  intro g
  induction g with
  | nil => intro r h; simp at h
  | cons row rest ih =>
    intro r hr hc hv
    cases r with
    | zero =>
      simp only [List.getD_cons_zero] at hc hv
      simp only [List.getD_eq_getElem?_getD, List.getElem?_eq_getElem hc,
        Option.getD_some] at hv
      simp only [countTrue, List.getD_cons_zero, List.set_cons_zero, List.map_cons,
        List.sum_cons, List.count_set true true row c hc, hv]
      simp
      omega
    | succ k =>
      simp only [List.getD_cons_succ] at hc hv
      simp only [List.length_cons, Nat.add_lt_add_iff_right] at hr
      have := ih k hr hc hv
      simp only [countTrue, List.getD_cons_succ, List.set_cons_succ, List.map_cons,
        List.sum_cons] at this ⊢
      omega

theorem countTrue_setCell {g : List (List Bool)} {rows cols : Int} (hg : IsGrid g rows cols)
    (r c : Int) (hr0 : 0 ≤ r) (hr1 : r < rows) (hc0 : 0 ≤ c) (hc1 : c < cols)
    (hv : cellAt false g r c = false) : countTrue (setCell g r c true) = countTrue g + 1 := by
  have hlen := isGrid_row_length hg hr0 hr1
  have hl := hg.1
  unfold cellAt at hv
  unfold setCell
  rw [if_neg (by omega)] at hv ⊢
  exact countTrue_set_aux c.toNat g r.toNat (by omega) (by omega) hv

theorem countTrue_mkGrid (rows cols : Int) : countTrue (mkGrid rows cols false) = 0 := by
  unfold countTrue mkGrid
  simp [List.count_replicate]

theorem isGrid_mkGrid {α : Type} (rows cols : Int) (v : α) (hr : 0 ≤ rows) (hc : 0 ≤ cols) :
    IsGrid (mkGrid rows cols v) rows cols := by
  unfold IsGrid mkGrid
  refine ⟨by simp; omega, ?_⟩
  intro row hrow
  rw [List.eq_of_mem_replicate hrow]
  simp; omega

theorem cellAt_mkGrid {α : Type} (d : α) (rows cols : Int) (i j : Int) :
    cellAt d (mkGrid rows cols d) i j = d := by
  unfold cellAt mkGrid
  split
  · rfl
  · simp only [List.getD_eq_getElem?_getD, List.getElem?_replicate]
    split
    · simp only [Option.getD_some, List.getElem?_replicate]
      split <;> rfl
    · simp

/-- Division and remainder by the row length recover the cell of a flat index. -/
theorem tdiv_tmod_cell {x cols i j : Int} (hx : 0 ≤ x) (hc : 0 < cols) :
    (x.tdiv cols = i ∧ x.tmod cols = j) ↔ (x = i * cols + j ∧ 0 ≤ j ∧ j < cols) := by
  rw [Int.tdiv_eq_ediv hx (le_of_lt hc), Int.tmod_eq_emod hx (le_of_lt hc),
    Int.ediv_emod_unique hc]
  constructor
  · rintro ⟨h1, h2, h3⟩
    exact ⟨by rw [← h1]; ring, h2, h3⟩
  · rintro ⟨h1, h2, h3⟩
    exact ⟨by rw [h1]; ring, h2, h3⟩

theorem tdiv_tmod_range {x rows cols : Int} (hx : 0 ≤ x) (hc : 0 < cols)
    (hlt : x < rows * cols) :
    0 ≤ x.tdiv cols ∧ x.tdiv cols < rows ∧ 0 ≤ x.tmod cols ∧ x.tmod cols < cols := by
  rw [Int.tdiv_eq_ediv hx (le_of_lt hc), Int.tmod_eq_emod hx (le_of_lt hc)]
  refine ⟨Int.ediv_nonneg hx (le_of_lt hc), ?_, Int.emod_nonneg _ (ne_of_gt hc),
    Int.emod_lt_of_pos _ hc⟩
  exact Int.ediv_lt_of_lt_mul hc hlt

namespace Board

theorem countNeighbors_eq (b : Board) :
    b.countNeighbors = { b with neighbors := (fillGrid b.rows b.cols
      (fun r c => if cellAt false b.mine r c then none else some (b.countAround r c))
      b.neighbors) } := by
  unfold countNeighbors fillGrid
  refine forRange_sim (fun (s : Board) (t : List (List Int)) => s = { b with neighbors := t })
    b.rows _ _ b b.neighbors rfl ?_
  intro r s t _ _ hst
  subst hst
  refine forRange_sim (fun (s : Board) (t : List (List Int)) => s = { b with neighbors := t })
    b.cols _ _ _ t rfl ?_
  intro c s t _ _ hst
  subst hst
  have hm : ({ b with neighbors := t } : Board).mine = b.mine := rfl
  have hc : ({ b with neighbors := t } : Board).countAround r c = b.countAround r c := rfl
  simp only [hm, hc]
  cases cellAt false b.mine r c <;> simp

/-- The mine grid after the placement loop of the constructor. -/
theorem placement_spec (r c mines : Int) (idx : List Int) (hr : 0 < r) (hc : 0 < c)
    (hm1 : mines ≤ r * c)
    (hperm : idx.Perm ((List.range (r * c).toNat).map Int.ofNat)) :
    let g := forRange mines (fun (g : List (List Bool)) i =>
      setCell g ((idx.getD i.toNat 0).tdiv c) ((idx.getD i.toNat 0).tmod c) true)
      (mkGrid r c false)
    IsGrid g r c ∧ (countTrue g : Int) = max mines 0 ∧
    ∀ i j, 0 ≤ i → i < r → 0 ≤ j → j < c →
      (cellAt false g i j = true ↔
        ∃ k : Nat, (k : Int) < mines ∧ idx[k]? = some (i * c + j)) := by
  have hlen : idx.length = (r * c).toNat := by simpa using hperm.length_eq
  have hnd : idx.Nodup := hperm.nodup_iff.mpr
    ((List.nodup_range _).map (fun a b h => by simpa using h))
  have hmem : ∀ x ∈ idx, 0 ≤ x ∧ x < r * c := by
    intro x hx
    have := hperm.mem_iff.mp hx
    simp only [List.mem_map, List.mem_range] at this
    obtain ⟨a, ha, rfl⟩ := this
    simp only [Int.ofNat_eq_coe]
    omega
  intro g
  have inv := forRange_induct
    (fun k (g : List (List Bool)) => IsGrid g r c ∧ (countTrue g : Int) = k ∧
      ∀ i j, 0 ≤ i → i < r → 0 ≤ j → j < c →
        (cellAt false g i j = true ↔ ∃ m : Nat, (m : Int) < k ∧ idx[m]? = some (i * c + j)))
    mines
    (fun (g : List (List Bool)) i =>
      setCell g ((idx.getD i.toNat 0).tdiv c) ((idx.getD i.toNat 0).tmod c) true)
    (mkGrid r c false)
    ⟨isGrid_mkGrid r c false (le_of_lt hr) (le_of_lt hc), by simp [countTrue_mkGrid], by
      intro i j _ _ _ _
      rw [cellAt_mkGrid]
      simp only [Bool.false_eq_true, false_iff, not_exists, not_and]
      intro m hm; omega⟩
    (by
      intro k g hk0 hk1 ⟨hg, hcnt, hcell⟩
      have hklt : k.toNat < idx.length := by
        have : 0 < r * c := Int.mul_pos hr hc
        omega
      have hget : idx.getD k.toNat 0 = idx[k.toNat] := by
        simp [List.getD_eq_getElem?_getD, List.getElem?_eq_getElem hklt]
      have hxm := hmem _ (List.getElem_mem hklt)
      rw [← hget] at hxm
      generalize hx : idx.getD k.toNat 0 = x at hxm hget
      obtain ⟨hx0, hx1⟩ := hxm
      obtain ⟨hd0, hd1, hm0, hm1'⟩ := tdiv_tmod_range hx0 hc hx1
      have hxeq : x = x.tdiv c * c + x.tmod c :=
        ((tdiv_tmod_cell hx0 hc).mp ⟨rfl, rfl⟩).1
      have hfresh : cellAt false g (x.tdiv c) (x.tmod c) = false := by
        cases hv : cellAt false g (x.tdiv c) (x.tmod c) with
        | false => rfl
        | true =>
          exfalso
          obtain ⟨m, hmk, hm⟩ := (hcell _ _ hd0 hd1 hm0 hm1').mp hv
          rw [← hxeq] at hm
          have hmlt : m < idx.length := by omega
          have : m = k.toNat := List.getElem?_inj hmlt hnd
            (by rw [hm, List.getElem?_eq_getElem hklt, ← hget])
          omega
      refine ⟨isGrid_setCell hg _ _ _, ?_, ?_⟩
      · simp only [hx]
        rw [countTrue_setCell hg _ _ hd0 hd1 hm0 hm1' hfresh]
        push_cast
        omega
      · intro i j hi0 hi1 hj0 hj1
        simp only [hx]
        rw [cellAt_setCell_of_isGrid hg false _ _ i j true hd0 hd1 hm0 hm1']
        by_cases hij : i = x.tdiv c ∧ j = x.tmod c
        · rw [if_pos hij]
          simp only [true_iff]
          refine ⟨k.toNat, by omega, ?_⟩
          rw [List.getElem?_eq_getElem hklt, ← hget, hij.1, hij.2, ← hxeq]
        · rw [if_neg hij, hcell i j hi0 hi1 hj0 hj1]
          constructor
          · rintro ⟨m, hmk, hm⟩
            exact ⟨m, by omega, hm⟩
          · rintro ⟨m, hmk, hm⟩
            refine ⟨m, ?_, hm⟩
            by_contra hge
            have hmk' : m = k.toNat := by omega
            subst hmk'
            rw [List.getElem?_eq_getElem hklt, ← hget] at hm
            have hxe : x = i * c + j := by simpa using hm
            exact hij ((tdiv_tmod_cell hx0 hc).mpr ⟨hxe, hj0, hj1⟩ |>.imp Eq.symm Eq.symm))
  refine ⟨inv.1, inv.2.1, ?_⟩
  intro i j hi0 hi1 hj0 hj1
  rw [inv.2.2 i j hi0 hi1 hj0 hj1]
  constructor
  · rintro ⟨m, hm, h⟩
    have hmlt : m < idx.length := by
      by_contra hh
      rw [List.getElem?_eq_none (by omega)] at h
      exact Option.noConfusion h
    exact ⟨m, by omega, h⟩
  · rintro ⟨m, hm, h⟩
    exact ⟨m, by omega, h⟩

theorem new_eq (r c mines : Int) (idx : List Int) :
    Board.new r c mines idx =
      countNeighbors
        { rows := r, cols := c, totalMines := mines, lost := false,
          mine := forRange mines (fun (g : List (List Bool)) i =>
            setCell g ((idx.getD i.toNat 0).tdiv c) ((idx.getD i.toNat 0).tmod c) true)
            (mkGrid r c false),
          revealed := mkGrid r c false, neighbors := mkGrid r c 0,
          flagged := mkGrid r c false } := by
  unfold Board.new
  simp only []
  congr 1
  refine forRange_sim (fun (s : Board) (t : List (List Bool)) =>
    s = { rows := r, cols := c, totalMines := mines, lost := false, mine := t,
          revealed := mkGrid r c false, neighbors := mkGrid r c 0,
          flagged := mkGrid r c false }) mines _ _ _ _ rfl ?_
  intro i s t _ _ hst
  subst hst
  rfl

end Board

/-- C5: for `rows > 0`, `cols > 0`, `0 <= mines <= rows * cols` and every permutation `idx` of
the indices `0 .. rows*cols-1`, the constructed board has exactly `mines` true entries in its
`rows` x `cols` mine grid, namely at the cells `(idx[k] / cols, idx[k] % cols)` of the first
`mines` indices; `revealed` and `flagged` are all false and `lost` is false. -/
theorem new_has_exactly_mines (rows cols mines : Int) (idx : List Int) (hr : 0 < rows)
    (hc : 0 < cols) (hm0 : 0 ≤ mines) (hm1 : mines ≤ rows * cols)
    (hperm : idx.Perm ((List.range (rows * cols).toNat).map Int.ofNat)) :
    (countTrue (Board.new rows cols mines idx).mine : Int) = mines ∧
    IsGrid (Board.new rows cols mines idx).mine rows cols ∧
    (∀ i j, 0 ≤ i → i < rows → 0 ≤ j → j < cols →
      (cellAt false (Board.new rows cols mines idx).mine i j = true ↔
        ∃ k : Nat, (k : Int) < mines ∧ idx[k]? = some (i * cols + j))) ∧
    (Board.new rows cols mines idx).revealed = mkGrid rows cols false ∧
    (Board.new rows cols mines idx).flagged = mkGrid rows cols false ∧
    (Board.new rows cols mines idx).lost = false ∧
    (Board.new rows cols mines idx).rows = rows ∧
    (Board.new rows cols mines idx).cols = cols ∧
    (Board.new rows cols mines idx).totalMines = mines := by
  have h := Board.placement_spec rows cols mines idx hr hc hm1 hperm
  simp only [] at h
  rw [Board.new_eq, Board.countNeighbors_eq]
  refine ⟨?_, h.1, h.2.2, rfl, rfl, rfl, rfl, rfl, rfl⟩
  simp only []
  rw [h.2.1]
  omega

/-- Witness for C5: a 2 x 3 board with two mines and the shuffle outcome 4 0 1 2 3 5. -/
theorem new_has_exactly_mines_witness :
    (countTrue (Board.new 2 3 2 [4, 0, 1, 2, 3, 5]).mine : Int) = 2 ∧
    IsGrid (Board.new 2 3 2 [4, 0, 1, 2, 3, 5]).mine 2 3 ∧
    (∀ i j, 0 ≤ i → i < 2 → 0 ≤ j → j < 3 →
      (cellAt false (Board.new 2 3 2 [4, 0, 1, 2, 3, 5]).mine i j = true ↔
        ∃ k : Nat, (k : Int) < 2 ∧ [(4 : Int), 0, 1, 2, 3, 5][k]? = some (i * 3 + j))) ∧
    (Board.new 2 3 2 [4, 0, 1, 2, 3, 5]).revealed = mkGrid 2 3 false ∧
    (Board.new 2 3 2 [4, 0, 1, 2, 3, 5]).flagged = mkGrid 2 3 false ∧
    (Board.new 2 3 2 [4, 0, 1, 2, 3, 5]).lost = false ∧
    (Board.new 2 3 2 [4, 0, 1, 2, 3, 5]).rows = 2 ∧
    (Board.new 2 3 2 [4, 0, 1, 2, 3, 5]).cols = 3 ∧
    (Board.new 2 3 2 [4, 0, 1, 2, 3, 5]).totalMines = 2 :=
  new_has_exactly_mines 2 3 2 [4, 0, 1, 2, 3, 5] (by decide) (by decide) (by decide)
    (by decide) (by decide)

/-! ## Neighbour counts -/

theorem foldl_incr {α : Type} (q : α → Bool) (l : List α) (n : Int) :
    l.foldl (fun cnt x => if q x = true then cnt + 1 else cnt) n = n + (l.countP q : Int) := by
  induction l generalizing n with
  | nil => simp
  | cons x xs ih =>
    simp only [List.foldl_cons, List.countP_cons]
    rw [ih]
    split
    · simp; omega
    · simp

theorem countAround_eq (b : Board) (r c : Int) (hm : cellAt false b.mine r c = false) :
    b.countAround r c = adjacentMines b r c := by
  unfold Board.countAround adjacentMines adjacentOffsets
  simp only [foldl_incr]
  simp only [List.foldl_cons, List.foldl_nil, List.countP_cons, List.countP_nil,
    ← List.countP_eq_length_filter, add_zero, hm, Bool.and_false]
  simp only [Int.add_neg_one, Nat.cast_add, Nat.cast_ite, Nat.cast_one, Nat.cast_zero]
  simp
  ring

theorem adjacentMines_bounds (b : Board) (r c : Int) :
    0 ≤ adjacentMines b r c ∧ adjacentMines b r c ≤ 8 := by
  unfold adjacentMines
  refine ⟨Int.natCast_nonneg _, ?_⟩
  have := List.length_filter_le (fun d : Int × Int =>
    b.inBounds (r + d.1) (c + d.2) && cellAt false b.mine (r + d.1) (c + d.2)) adjacentOffsets
  have h8 : adjacentOffsets.length = 8 := rfl
  omega

/-- The neighbour grid after `countNeighbors`, cell by cell. -/
theorem countNeighbors_cell (b : Board) (hn : IsGrid b.neighbors b.rows b.cols) (r c : Int)
    (hin : b.inBounds r c = true) :
    cellAt 0 b.countNeighbors.neighbors r c =
      if cellAt false b.mine r c then cellAt 0 b.neighbors r c else adjacentMines b r c := by
  rw [Board.countNeighbors_eq]
  simp only []
  rw [(fillGrid_spec 0 b.rows b.cols _ b.neighbors hn).2 r c,
    if_pos ((Board.inBounds_iff b r c).mp hin)]
  cases hm : cellAt false b.mine r c with
  | true => simp
  | false => simp [countAround_eq b r c hm]

/-! ## Reading a grid -/

/-- What a reading loop does to a grid of the loop's dimensions: the stream advances by
`rows * cols` extractions and the cell `(i, j)` records whether extraction number
`i * cols + j` (counted from 0) left the value 1 in `val`. -/
theorem readCells_spec (rows cols : Int) (g : List (List Bool)) (hg : IsGrid g rows cols)
    (st : IStream × Int) :
    IsGrid (readCells rows cols (g, st)).1 rows cols ∧
    (readCells rows cols (g, st)).2 = runExtract (rows * cols).toNat st ∧
    ∀ i j, 0 ≤ i → i < rows → 0 ≤ j → j < cols →
      cellAt false (readCells rows cols (g, st)).1 i j =
        decide ((runExtract ((i * cols + j).toNat + 1) st).2 = 1) := by
  have hrows : 0 ≤ rows := by have := hg.1; omega
  have outer := forRange_induct
    (fun R (s : List (List Bool) × IStream × Int) =>
      IsGrid s.1 rows cols ∧ s.2 = runExtract (R * cols).toNat st ∧
      ∀ i j, 0 ≤ i → i < R → 0 ≤ j → j < cols →
        cellAt false s.1 i j = decide ((runExtract ((i * cols + j).toNat + 1) st).2 = 1))
    rows (fun s r => forRange cols (fun s c => readCell s r c) s) (g, st)
    ⟨hg, by simp [runExtract], by intro i j h0 h1; omega⟩
    (by
      intro R s hR0 hR1 ⟨hs1, hs2, hs3⟩
      have hcols : 0 ≤ cols := by have := isGrid_row_length hg hR0 hR1; omega
      have hRc : 0 ≤ R * cols := Int.mul_nonneg hR0 hcols
      have inner := forRange_induct
        (fun C (t : List (List Bool) × IStream × Int) =>
          IsGrid t.1 rows cols ∧ t.2 = runExtract (R * cols + C).toNat st ∧
          ∀ i j, 0 ≤ i → (i < R ∨ (i = R ∧ j < C)) → 0 ≤ j → j < cols →
            cellAt false t.1 i j = decide ((runExtract ((i * cols + j).toNat + 1) st).2 = 1))
        cols (fun s c => readCell s R c) s
        ⟨hs1, by simpa using hs2, by
          intro i j h0 h1 h2 h3
          exact hs3 i j h0 (by omega) h2 h3⟩
        (by
          intro C t hC0 hC1 ⟨ht1, ht2, ht3⟩
          have hk : (R * cols + (C + 1)).toNat = (R * cols + C).toNat + 1 := by omega
          have hstep : extractInt t.2.1 t.2.2 = runExtract ((R * cols + C).toNat + 1) st := by
            rw [runExtract, ← ht2]
          refine ⟨isGrid_setCell ht1 _ _ _, ?_, ?_⟩
          · show ((extractInt t.2.1 t.2.2).1, (extractInt t.2.1 t.2.2).2) = _
            rw [hk, hstep]
          · intro i j h0 h1 h2 h3
            show cellAt false (setCell t.1 R C (decide ((extractInt t.2.1 t.2.2).2 = 1))) i j = _
            rw [cellAt_setCell_of_isGrid ht1 false R C i j _ hR0 hR1 hC0 hC1]
            by_cases hij : i = R ∧ j = C
            · obtain ⟨rfl, rfl⟩ := hij
              rw [if_pos ⟨rfl, rfl⟩, hstep]
            · rw [if_neg hij]
              exact ht3 i j h0 (by omega) h2 h3)
      have hmax : max cols 0 = cols := by omega
      rw [hmax] at inner
      obtain ⟨hi1, hi2, hi3⟩ := inner
      have hmul : (R + 1) * cols = R * cols + cols := by ring
      refine ⟨hi1, by rw [hmul]; exact hi2, ?_⟩
      intro i j h0 h1 h2 h3
      exact hi3 i j h0 (by omega) h2 h3)
  have hmax : max rows 0 = rows := by omega
  rw [hmax] at outer
  exact outer

/-! ## Loading -/

namespace Board

theorem readMine_eq (l : Loader) :
    readMine l =
      { board := { l.board with
          mine := (readCells l.board.rows l.board.cols (l.board.mine, l.input, l.val)).1 }
        input := (readCells l.board.rows l.board.cols (l.board.mine, l.input, l.val)).2.1
        val := (readCells l.board.rows l.board.cols (l.board.mine, l.input, l.val)).2.2 } := by
  unfold readMine readCells
  refine forRange_sim (fun (s : Loader) (t : List (List Bool) × IStream × Int) =>
    s = { board := { l.board with mine := t.1 }, input := t.2.1, val := t.2.2 })
    l.board.rows _ _ _ _ rfl ?_
  intro r s t _ _ hs
  subst hs
  refine forRange_sim (fun (s : Loader) (t : List (List Bool) × IStream × Int) =>
    s = { board := { l.board with mine := t.1 }, input := t.2.1, val := t.2.2 })
    l.board.cols _ _ _ t rfl ?_
  intro c s t _ _ hs
  subst hs
  rfl

theorem readRevealed_eq (l : Loader) :
    readRevealed l =
      { board := { l.board with
          revealed := (readCells l.board.rows l.board.cols (l.board.revealed, l.input, l.val)).1 }
        input := (readCells l.board.rows l.board.cols (l.board.revealed, l.input, l.val)).2.1
        val := (readCells l.board.rows l.board.cols (l.board.revealed, l.input, l.val)).2.2 } := by
  unfold readRevealed readCells
  refine forRange_sim (fun (s : Loader) (t : List (List Bool) × IStream × Int) =>
    s = { board := { l.board with revealed := t.1 }, input := t.2.1, val := t.2.2 })
    l.board.rows _ _ _ _ rfl ?_
  intro r s t _ _ hs
  subst hs
  refine forRange_sim (fun (s : Loader) (t : List (List Bool) × IStream × Int) =>
    s = { board := { l.board with revealed := t.1 }, input := t.2.1, val := t.2.2 })
    l.board.cols _ _ _ t rfl ?_
  intro c s t _ _ hs
  subst hs
  rfl

theorem readFlagged_eq (l : Loader) :
    readFlagged l =
      { board := { l.board with
          flagged := (readCells l.board.rows l.board.cols (l.board.flagged, l.input, l.val)).1 }
        input := (readCells l.board.rows l.board.cols (l.board.flagged, l.input, l.val)).2.1
        val := (readCells l.board.rows l.board.cols (l.board.flagged, l.input, l.val)).2.2 } := by
  unfold readFlagged readCells
  refine forRange_sim (fun (s : Loader) (t : List (List Bool) × IStream × Int) =>
    s = { board := { l.board with flagged := t.1 }, input := t.2.1, val := t.2.2 })
    l.board.rows _ _ _ _ rfl ?_
  intro r s t _ _ hs
  subst hs
  refine forRange_sim (fun (s : Loader) (t : List (List Bool) × IStream × Int) =>
    s = { board := { l.board with flagged := t.1 }, input := t.2.1, val := t.2.2 })
    l.board.cols _ _ _ t rfl ?_
  intro c s t _ _ hs
  subst hs
  rfl

theorem loadFromFile_eq (b : Board) (text : List Char) (val0 : Int) :
    b.loadFromFile (some text) val0 =
      if (readHeader b text).1.failed then
        some (false, { b with
          rows := (readHeader b text).2.1
          cols := (readHeader b text).2.2.1
          totalMines := (readHeader b text).2.2.2 })
      else if (readHeader b text).2.1 < 0 ∨ (readHeader b text).2.2.1 < 0 then none
      else
        some (true, loadedBoard (readHeader b text).2.1 (readHeader b text).2.2.1
          (readHeader b text).2.2.2 (readHeader b text).1 val0 b.flagged) := by
  unfold loadFromFile readHeader loadedBoard
  simp only []
  split
  · rfl
  split
  · rfl
  generalize (extractInt { rest := text, failed := false } b.rows) = h1
  generalize (extractInt h1.1 b.cols) = h2
  generalize (extractInt h2.1 b.totalMines) = h3
  simp only [readMine_eq, readRevealed_eq, readFlagged_eq, countNeighbors_eq]
  simp only [countAround, inBounds]

theorem loadFromFile_success {b : Board} {text : List Char} {val0 : Int} {b2 : Board}
    (h : b.loadFromFile (some text) val0 = some (true, b2)) :
    (readHeader b text).1.failed = false ∧ 0 ≤ (readHeader b text).2.1 ∧
    0 ≤ (readHeader b text).2.2.1 ∧
    b2 = loadedBoard (readHeader b text).2.1 (readHeader b text).2.2.1
      (readHeader b text).2.2.2 (readHeader b text).1 val0 b.flagged := by
  rw [loadFromFile_eq] at h
  split at h
  · simp at h
  · rename_i hf
    split at h
    · simp at h
    · rename_i hneg
      simp only [Option.some.injEq, Prod.mk.injEq, true_and] at h
      refine ⟨by simpa using hf, by omega, by omega, h.symm⟩

theorem loadedBoard_rows (rows cols totalMines : Int) (input : IStream) (val0 : Int)
    (flagged : List (List Bool)) :
    (loadedBoard rows cols totalMines input val0 flagged).rows = rows := by
  simp [loadedBoard, countNeighbors_eq]

theorem loadedBoard_cols (rows cols totalMines : Int) (input : IStream) (val0 : Int)
    (flagged : List (List Bool)) :
    (loadedBoard rows cols totalMines input val0 flagged).cols = cols := by
  simp [loadedBoard, countNeighbors_eq]

theorem loadedBoard_mine (rows cols totalMines : Int) (input : IStream) (val0 : Int)
    (flagged : List (List Bool)) :
    (loadedBoard rows cols totalMines input val0 flagged).mine =
      (readCells rows cols (mkGrid rows cols false, input, val0)).1 := by
  simp [loadedBoard, countNeighbors_eq]

theorem loadedBoard_revealed (rows cols totalMines : Int) (input : IStream) (val0 : Int)
    (flagged : List (List Bool)) :
    (loadedBoard rows cols totalMines input val0 flagged).revealed =
      (readCells rows cols (mkGrid rows cols false,
        (readCells rows cols (mkGrid rows cols false, input, val0)).2)).1 := by
  simp [loadedBoard, countNeighbors_eq]

theorem loadedBoard_flagged (rows cols totalMines : Int) (input : IStream) (val0 : Int)
    (flagged : List (List Bool)) :
    (loadedBoard rows cols totalMines input val0 flagged).flagged =
      (readCells rows cols (flagged,
        (readCells rows cols (mkGrid rows cols false,
          (readCells rows cols (mkGrid rows cols false, input, val0)).2)).2)).1 := by
  simp [loadedBoard, countNeighbors_eq]

end Board

theorem runExtract_add (a k : Nat) (st : IStream × Int) :
    runExtract (a + k) st = runExtract k (runExtract a st) := by
  induction k with
  | zero => rfl
  | succ n ih =>
    rw [← Nat.add_assoc, runExtract, ih, runExtract]

theorem adjacentMines_congr (b1 b2 : Board) (hr : b1.rows = b2.rows) (hc : b1.cols = b2.cols)
    (hm : b1.mine = b2.mine) (r c : Int) : adjacentMines b1 r c = adjacentMines b2 r c := by
  unfold adjacentMines Board.inBounds
  rw [hr, hc, hm]

/-- The neighbour counts that `countNeighbors` leaves at the cells without a mine. -/
theorem countNeighbors_safe_cell (b : Board) (hn : IsGrid b.neighbors b.rows b.cols) (r c : Int)
    (hin : b.countNeighbors.inBounds r c = true)
    (hm : cellAt false b.countNeighbors.mine r c = false) :
    cellAt 0 b.countNeighbors.neighbors r c = adjacentMines b.countNeighbors r c := by
  have hin2 : b.inBounds r c = true := by
    rw [Board.countNeighbors_eq] at hin; exact hin
  have hm2 : cellAt false b.mine r c = false := by
    rw [Board.countNeighbors_eq] at hm; exact hm
  rw [countNeighbors_cell b hn r c hin2, hm2]
  simp only [Bool.false_eq_true, if_false]
  exact adjacentMines_congr _ _ (by rw [Board.countNeighbors_eq])
    (by rw [Board.countNeighbors_eq]) (by rw [Board.countNeighbors_eq]) r c

/-- C6: after `countNeighbors` has run, at the end of the constructor, at the end of a
successful load, or on any board whose neighbour grid is `rows` x `cols`, every in-bounds
cell without a mine holds in `neighbors` the number of cells among its eight adjacent cells
that are on the board and hold a mine; the number is between 0 and 8. -/
theorem countNeighbors_counts_adjacent_mines (b2 : Board)
    (horigin : (∃ rows cols mines idx, b2 = Board.new rows cols mines idx) ∨
      (∃ b file val0, Board.loadFromFile b file val0 = some (true, b2)) ∨
      (∃ b : Board, IsGrid b.neighbors b.rows b.cols ∧ b2 = b.countNeighbors))
    (r c : Int) (hin : b2.inBounds r c = true) (hm : cellAt false b2.mine r c = false) :
    cellAt 0 b2.neighbors r c = adjacentMines b2 r c ∧
    0 ≤ cellAt 0 b2.neighbors r c ∧ cellAt 0 b2.neighbors r c ≤ 8 := by
  have key : cellAt 0 b2.neighbors r c = adjacentMines b2 r c := by
    rcases horigin with ⟨rows, cols, mines, idx, rfl⟩ | ⟨b, file, val0, hload⟩ |
      ⟨b, hn, rfl⟩
    · rw [Board.new_eq] at hin hm ⊢
      have hb : 0 ≤ r ∧ r < rows ∧ 0 ≤ c ∧ c < cols := by
        have := (Board.inBounds_iff _ r c).mp hin
        rw [Board.countNeighbors_eq] at this
        exact this
      exact countNeighbors_safe_cell _
        (isGrid_mkGrid rows cols 0 (by omega) (by omega)) r c hin hm
    · cases file with
      | none => simp [Board.loadFromFile] at hload
      | some text =>
        obtain ⟨_, hr0, hc0, rfl⟩ := Board.loadFromFile_success hload
        have h := countNeighbors_safe_cell _
          (isGrid_mkGrid (readHeader b text).2.1 (readHeader b text).2.2.1 0 hr0 hc0) r c hin hm
        exact h
    · exact countNeighbors_safe_cell b hn r c hin hm
  rw [key]
  exact ⟨rfl, adjacentMines_bounds b2 r c⟩

/-- Witness for C6: the corner cell `b3` of a constructed 2 x 3 board. -/
theorem countNeighbors_counts_adjacent_mines_witness :
    cellAt 0 (Board.new 2 3 2 [4, 0, 1, 2, 3, 5]).neighbors 1 2 =
      adjacentMines (Board.new 2 3 2 [4, 0, 1, 2, 3, 5]) 1 2 ∧
    0 ≤ cellAt 0 (Board.new 2 3 2 [4, 0, 1, 2, 3, 5]).neighbors 1 2 ∧
    cellAt 0 (Board.new 2 3 2 [4, 0, 1, 2, 3, 5]).neighbors 1 2 ≤ 8 :=
  countNeighbors_counts_adjacent_mines (Board.new 2 3 2 [4, 0, 1, 2, 3, 5])
    (Or.inl ⟨2, 3, 2, [4, 0, 1, 2, 3, 5], rfl⟩) 1 2 (by decide) (by decide)

/-! ## Loading: dimensions and tokens -/

theorem loadedBoard_isGrid (rows cols totalMines : Int) (input : IStream) (val0 : Int)
    (flagged : List (List Bool)) (hr : 0 ≤ rows) (hc : 0 ≤ cols) :
    IsGrid (Board.loadedBoard rows cols totalMines input val0 flagged).mine rows cols ∧
    IsGrid (Board.loadedBoard rows cols totalMines input val0 flagged).revealed rows cols ∧
    (IsGrid flagged rows cols →
      IsGrid (Board.loadedBoard rows cols totalMines input val0 flagged).flagged rows cols) := by
  rw [Board.loadedBoard_mine, Board.loadedBoard_revealed, Board.loadedBoard_flagged]
  exact ⟨(readCells_spec rows cols _ (isGrid_mkGrid rows cols false hr hc) _).1,
    (readCells_spec rows cols _ (isGrid_mkGrid rows cols false hr hc) _).1,
    fun hf => (readCells_spec rows cols _ hf _).1⟩

/-- C8, at the failing input: the default 6 x 6 board loads a well-formed save of a 2 x 2
board.  The load succeeds, `rows` and `cols` become 2, the `mine` and `revealed` grids are
2 x 2, and the `flagged` grid still has its 6 rows of 6 entries. -/
theorem loadFromFile_leaves_flagged_dims :
    Board.loadFromFile defaultBoard (some smallSave) 0 =
    some (true, {
      rows := 2, cols := 2, totalMines := 1, lost := false,
      mine := [[true, false], [false, false]],
      revealed := [[false, false], [false, false]],
      neighbors := [[0, 1], [1, 1]],
      flagged := mkGrid 6 6 false }) ∧
    decide defaultBoard.WellFormed = true := by
  decide

/-- Counterexample for C9: in `tinySave` the extraction for the mine cell yields the nonzero
value 2, the load succeeds, and the loaded mine cell is false. -/
theorem loadFromFile_nonzero_token_false :
    (runExtract 1 ((readHeader tinyBoard tinySave).1, 0)).2 = 2 ∧
    Board.loadFromFile tinyBoard (some tinySave) 0 = some (true, tinyLoaded) ∧
    cellAt false tinyLoaded.mine 0 0 = false := by
  decide

/-- C9, amended: after a successful load every cell of `mine` and of `revealed` is true
exactly when the integer that the extraction for that cell left in `val` is 1, and so is every
cell of `flagged` when the `flagged` grid of the receiving board has the dimensions of the
header.  The extractions are numbered from the end of the header: cell `(i, j)` of `mine` is
number `i * cols + j`, then come `rows * cols` for `revealed` and as many for `flagged`. -/
theorem loadFromFile_cell_true_iff_one (b : Board) (text : List Char) (val0 : Int) (b2 : Board)
    (h : b.loadFromFile (some text) val0 = some (true, b2)) :
    (∀ i j, b2.inBounds i j = true →
      (cellAt false b2.mine i j = true ↔
        (runExtract ((i * b2.cols + j).toNat + 1) ((readHeader b text).1, val0)).2 = 1)) ∧
    (∀ i j, b2.inBounds i j = true →
      (cellAt false b2.revealed i j = true ↔
        (runExtract ((b2.rows * b2.cols).toNat + (i * b2.cols + j).toNat + 1)
          ((readHeader b text).1, val0)).2 = 1)) ∧
    (IsGrid b.flagged b2.rows b2.cols → ∀ i j, b2.inBounds i j = true →
      (cellAt false b2.flagged i j = true ↔
        (runExtract ((b2.rows * b2.cols).toNat + (b2.rows * b2.cols).toNat +
          (i * b2.cols + j).toNat + 1) ((readHeader b text).1, val0)).2 = 1)) := by
  obtain ⟨_, hr0, hc0, rfl⟩ := Board.loadFromFile_success h
  generalize (readHeader b text).2.1 = rows at *
  generalize (readHeader b text).2.2.1 = cols at *
  generalize (readHeader b text).2.2.2 = total at *
  generalize (readHeader b text).1 = input at *
  simp only [Board.inBounds_iff, Board.loadedBoard_rows, Board.loadedBoard_cols,
    Board.loadedBoard_mine, Board.loadedBoard_revealed, Board.loadedBoard_flagged]
  have hg := isGrid_mkGrid rows cols false hr0 hc0
  have s1 := readCells_spec rows cols _ hg (input, val0)
  have s2 := readCells_spec rows cols _ hg (readCells rows cols (mkGrid rows cols false,
    input, val0)).2
  refine ⟨?_, ?_, ?_⟩
  · intro i j ⟨h1, h2, h3, h4⟩
    rw [s1.2.2 i j h1 h2 h3 h4]
    simp
  · intro i j ⟨h1, h2, h3, h4⟩
    rw [s2.2.2 i j h1 h2 h3 h4, s1.2.1, ← runExtract_add, Nat.add_assoc]
    simp
  · intro hf i j ⟨h1, h2, h3, h4⟩
    have s3 := readCells_spec rows cols _ hf (readCells rows cols (mkGrid rows cols false,
      (readCells rows cols (mkGrid rows cols false, input, val0)).2)).2
    rw [s3.2.2 i j h1 h2 h3 h4, s2.2.1, s1.2.1, ← runExtract_add, ← runExtract_add,
      Nat.add_assoc, Nat.add_assoc]
    simp [Nat.add_assoc]

/-- Witness for C9: loading `tinySave` into the 1 x 1 board. -/
theorem loadFromFile_cell_true_iff_one_witness :
    (∀ i j, tinyLoaded.inBounds i j = true →
      (cellAt false tinyLoaded.mine i j = true ↔
        (runExtract ((i * tinyLoaded.cols + j).toNat + 1)
          ((readHeader tinyBoard tinySave).1, 0)).2 = 1)) ∧
    (∀ i j, tinyLoaded.inBounds i j = true →
      (cellAt false tinyLoaded.revealed i j = true ↔
        (runExtract ((tinyLoaded.rows * tinyLoaded.cols).toNat +
          (i * tinyLoaded.cols + j).toNat + 1) ((readHeader tinyBoard tinySave).1, 0)).2 = 1)) ∧
    (IsGrid tinyBoard.flagged tinyLoaded.rows tinyLoaded.cols →
      ∀ i j, tinyLoaded.inBounds i j = true →
        (cellAt false tinyLoaded.flagged i j = true ↔
          (runExtract ((tinyLoaded.rows * tinyLoaded.cols).toNat +
            (tinyLoaded.rows * tinyLoaded.cols).toNat + (i * tinyLoaded.cols + j).toNat + 1)
            ((readHeader tinyBoard tinySave).1, 0)).2 = 1)) :=
  loadFromFile_cell_true_iff_one tinyBoard tinySave 0 tinyLoaded (by decide)

/-- C10, at the failing input: the default 6 x 6 board loads a file whose content is `9 9 x`.
The load reports failure, yet `rows` and `cols` are now 9 while the grids keep their 6 rows, so
`inBounds` accepts the cell `(7, 7)` that no grid has and the board is no longer well formed.
When the file cannot be opened the board is returned unchanged. -/
theorem loadFromFile_failure_overwrites_dims :
    Board.loadFromFile defaultBoard (some badHeaderFile) 0 =
      some (false, { defaultBoard with rows := 9, cols := 9, totalMines := 0 }) ∧
    ({ defaultBoard with rows := 9, cols := 9, totalMines := 0 } : Board).inBounds 7 7 = true ∧
    defaultBoard.mine.length = 6 ∧ defaultBoard.revealed.length = 6 ∧
    defaultBoard.flagged.length = 6 ∧
    decide ({ defaultBoard with rows := 9, cols := 9, totalMines := 0 } : Board).WellFormed
      = false ∧
    decide defaultBoard.WellFormed = true ∧
    ∀ (b : Board) (val0 : Int), b.loadFromFile none val0 = some (false, b) := by
  refine ⟨by decide, by decide, by decide, by decide, by decide, by decide, by decide, ?_⟩
  intro b val0
  rfl

/-! ## Decimal output read back -/

theorem toDigitsCore_append (fuel : Nat) :
    ∀ (n : Nat) (acc : List Char),
      Nat.toDigitsCore 10 fuel n acc = Nat.toDigitsCore 10 fuel n [] ++ acc := by
  induction fuel with
  | zero => intro n acc; simp [Nat.toDigitsCore]
  | succ f ih =>
    intro n acc
    simp only [Nat.toDigitsCore]
    split
    · simp
    · rw [ih (n / 10) (_ :: acc), ih (n / 10) [_]]
      simp

theorem digitChar_spec :
    ∀ m : Nat, m < 10 →
      (Nat.digitChar m).isDigit = true ∧ digitVal (Nat.digitChar m) = (m : Int) := by
  decide

theorem digitsVal_append (xs : List Char) (d : Char) :
    digitsVal (xs ++ [d]) = digitsVal xs * 10 + digitVal d := by
  simp [digitsVal, List.foldl_append]

theorem toDigitsCore_spec (fuel : Nat) :
    ∀ n : Nat, n < fuel →
      Nat.toDigitsCore 10 fuel n [] ≠ [] ∧
      (∀ ch ∈ Nat.toDigitsCore 10 fuel n [], ch.isDigit = true) ∧
      digitsVal (Nat.toDigitsCore 10 fuel n []) = (n : Int) := by
  induction fuel with
  | zero => intro n h; omega
  | succ f ih =>
    intro n hn
    have hd := digitChar_spec (n % 10) (Nat.mod_lt _ (by decide))
    simp only [Nat.toDigitsCore]
    split
    · rename_i h0
      refine ⟨by simp, by simpa using hd.1, ?_⟩
      simp only [digitsVal, List.foldl_cons, List.foldl_nil, hd.2]
      omega
    · rename_i h0
      rw [toDigitsCore_append]
      obtain ⟨_, h2, h3⟩ := ih (n / 10) (by omega)
      refine ⟨by simp, ?_, ?_⟩
      · intro ch hch
        rcases List.mem_append.mp hch with h | h
        · exact h2 ch h
        · rw [List.mem_singleton.mp h]; exact hd.1
      · rw [digitsVal_append, h3, hd.2]
        omega

theorem toDigits_spec (n : Nat) :
    Nat.toDigits 10 n ≠ [] ∧ (∀ ch ∈ Nat.toDigits 10 n, ch.isDigit = true) ∧
    digitsVal (Nat.toDigits 10 n) = (n : Int) :=
  toDigitsCore_spec (n + 1) n (Nat.lt_succ_self n)

theorem isSpace_not_digit (w : Char) (h : isSpace w = true) : w.isDigit = false := by
  unfold isSpace at h
  simp only [Bool.or_eq_true, beq_iff_eq] at h
  rcases h with ((((h | h) | h) | h) | h) | h <;> subst h <;> decide

theorem isSpace_not_sign (w : Char) (h : isSpace w = true) : w ≠ '-' ∧ w ≠ '+' := by
  unfold isSpace at h
  simp only [Bool.or_eq_true, beq_iff_eq] at h
  rcases h with ((((h | h) | h) | h) | h) | h <;> subst h <;> decide

theorem isDigit_not_space (ch : Char) (h : ch.isDigit = true) :
    isSpace ch = false ∧ ch ≠ '-' ∧ ch ≠ '+' := by
  refine ⟨?_, ?_, ?_⟩
  · cases hs : isSpace ch with
    | false => rfl
    | true => rw [isSpace_not_digit ch hs] at h; exact Bool.noConfusion h
  · rintro rfl; revert h; decide
  · rintro rfl; revert h; decide

/-- Extraction skips a leading white-space character. -/
theorem extractInt_skip (w : Char) (text : List Char) (x : Int) (hw : isSpace w = true) :
    extractInt { rest := w :: text, failed := false } x =
      extractInt { rest := text, failed := false } x := by
  unfold extractInt
  simp [List.dropWhile_cons, hw]

/-- Extraction of a run of digits that ends at a white-space character. -/
theorem extractInt_digits (ds : List Char) (w : Char) (text : List Char) (x : Int)
    (hne : ds ≠ []) (hds : ∀ ch ∈ ds, ch.isDigit = true) (hw : isSpace w = true)
    (hmax : digitsVal ds ≤ intMax) (hmin : intMin ≤ digitsVal ds) :
    extractInt { rest := ds ++ w :: text, failed := false } x =
      ({ rest := w :: text, failed := false }, digitsVal ds) := by
  obtain ⟨d, ds2, rfl⟩ := List.exists_cons_of_ne_nil hne
  have hd := isDigit_not_space d (hds d (List.mem_cons_self _ _))
  have hwd := isSpace_not_digit w hw
  have htake : ((d :: ds2) ++ w :: text).takeWhile Char.isDigit = d :: ds2 := by
    rw [List.takeWhile_append_of_pos hds]
    simp [List.takeWhile_cons, hwd]
  have hdrop : ((d :: ds2) ++ w :: text).dropWhile Char.isDigit = w :: text := by
    rw [List.dropWhile_append_of_pos hds]
    simp [List.dropWhile_cons, hwd]
  unfold extractInt
  have hsp : ((d :: ds2) ++ w :: text).dropWhile isSpace = d :: (ds2 ++ w :: text) := by
    simp [List.dropWhile_cons, hd.1]
  simp only [Bool.false_eq_true, if_false, hsp]
  have hplus : (d == '+') = false := by simp [hd.2.2]
  have hminus : (d == '-') = false := by simp [hd.2.1]
  simp only [hplus, hminus, Bool.or_self, Bool.false_eq_true, if_false]
  rw [← List.cons_append, htake, hdrop]
  simp only [List.isEmpty_cons, Bool.false_eq_true, if_false]
  rw [if_neg (by omega), if_neg (by omega)]

/-- Extraction of a minus sign and a run of digits that ends at a white-space character. -/
theorem extractInt_minus_digits (ds : List Char) (w : Char) (text : List Char) (x : Int)
    (hne : ds ≠ []) (hds : ∀ ch ∈ ds, ch.isDigit = true) (hw : isSpace w = true)
    (hmax : - digitsVal ds ≤ intMax) (hmin : intMin ≤ - digitsVal ds) :
    extractInt { rest := '-' :: (ds ++ w :: text), failed := false } x =
      ({ rest := w :: text, failed := false }, - digitsVal ds) := by
  have hwd := isSpace_not_digit w hw
  have htake : (ds ++ w :: text).takeWhile Char.isDigit = ds := by
    rw [List.takeWhile_append_of_pos hds]
    simp [List.takeWhile_cons, hwd]
  have hdrop : (ds ++ w :: text).dropWhile Char.isDigit = w :: text := by
    rw [List.dropWhile_append_of_pos hds]
    simp [List.dropWhile_cons, hwd]
  unfold extractInt
  have hsp : ('-' :: (ds ++ w :: text)).dropWhile isSpace = '-' :: (ds ++ w :: text) := by
    rw [List.dropWhile_cons_of_neg (by decide)]
  simp only [Bool.false_eq_true, if_false, hsp, beq_self_eq_true, Bool.true_or, if_true]
  rw [htake, hdrop]
  have hemp : ds.isEmpty = false := by
    cases ds with
    | nil => exact absurd rfl hne
    | cons _ _ => rfl
  simp only [hemp, Bool.false_eq_true, if_false]
  rw [if_neg (by omega), if_neg (by omega)]

/-- What `out << n` writes, followed by white space, is read back by `in >> x` as `n`. -/
theorem extractInt_putInt (n : Int) (w : Char) (text : List Char) (x : Int) (hn : IsInt32 n)
    (hw : isSpace w = true) :
    extractInt { rest := putInt n ++ w :: text, failed := false } x =
      ({ rest := w :: text, failed := false }, n) := by
  obtain ⟨h1, h2, h3⟩ := toDigits_spec n.natAbs
  unfold IsInt32 at hn
  unfold putInt
  split
  · rename_i hneg
    have hv : - digitsVal (Nat.toDigits 10 n.natAbs) = n := by rw [h3]; omega
    rw [List.cons_append, extractInt_minus_digits _ w text x h1 h2 hw (by omega) (by omega), hv]
  · rename_i hpos
    have hv : digitsVal (Nat.toDigits 10 n.natAbs) = n := by rw [h3]; omega
    rw [extractInt_digits _ w text x h1 h2 hw (by omega) (by omega), hv]

/-- One extraction from a token text yields the first integer and leaves a token text of the
others. -/
theorem TokenText.extract {t : Int} {ts : List Int} {text : List Char}
    (h : TokenText (t :: ts) text) (x : Int) :
    ∃ text2, extractInt { rest := text, failed := false } x =
      ({ rest := text2, failed := false }, t) ∧ TokenText ts text2 := by
  generalize hts : t :: ts = tts at h
  induction h with
  | done text => exact absurd hts (by simp)
  | skip w ts0 text0 hw _ ih =>
    obtain ⟨text2, h1, h2⟩ := ih hts
    exact ⟨text2, by rw [extractInt_skip w text0 x hw]; exact h1, h2⟩
  | tok t0 w ts0 text0 ht hw htail _ =>
    obtain ⟨rfl, rfl⟩ := List.cons.inj hts
    exact ⟨w :: text0, extractInt_putInt t w text0 x ht hw, TokenText.skip w ts text0 hw htail⟩

/-- The values that successive extractions from a token text leave in the variable. -/
theorem TokenText.runExtract_val {ts : List Int} {text : List Char} (h : TokenText ts text) :
    ∀ (k : Nat) (x : Int), k < ts.length →
      (runExtract (k + 1) ({ rest := text, failed := false }, x)).2 = ts.getD k 0 := by
  intro k
  induction k generalizing ts text with
  | zero =>
    intro x hk
    cases ts with
    | nil => simp at hk
    | cons t ts2 =>
      obtain ⟨text2, h1, _⟩ := h.extract x
      simp [runExtract, h1]
  | succ n ih =>
    intro x hk
    cases ts with
    | nil => simp at hk
    | cons t ts2 =>
      obtain ⟨text2, h1, h2⟩ := h.extract x
      have hk2 : n < ts2.length := by simpa using hk
      rw [Nat.add_comm (n + 1) 1, runExtract_add]
      have : runExtract 1 ({ rest := text, failed := false }, x) =
          ({ rest := text2, failed := false }, t) := by simp [runExtract, h1]
      rw [this, ih h2 t hk2]
      simp

/-- The state that a token text is in after its first integers have been extracted. -/
theorem TokenText.runExtract_state (ts1 : List Int) :
    ∀ {ts2 : List Int} {text : List Char} (x : Int), TokenText (ts1 ++ ts2) text →
      ∃ text2 x2, runExtract ts1.length ({ rest := text, failed := false }, x) =
        ({ rest := text2, failed := false }, x2) ∧ TokenText ts2 text2 := by
  induction ts1 with
  | nil => intro ts2 text x h; exact ⟨text, x, rfl, h⟩
  | cons t ts ih =>
    intro ts2 text x h
    obtain ⟨text1, h1, h2⟩ := TokenText.extract (by simpa using h) x
    obtain ⟨text2, x2, h3, h4⟩ := ih t h2
    refine ⟨text2, x2, ?_, h4⟩
    rw [List.length_cons, Nat.add_comm, runExtract_add]
    have : runExtract 1 ({ rest := text, failed := false }, x) =
        ({ rest := text1, failed := false }, t) := by simp [runExtract, h1]
    rw [this, h3]

/-! ## The saved text as a token text -/

theorem tokenText_putRow (row : List Bool) {ts : List Int} {text : List Char}
    (h : TokenText ts text) :
    TokenText (row.map (fun b => if b then (1 : Int) else 0) ++ ts)
      ((row.map fun b => putInt (if b then 1 else 0) ++ [' ']).flatten ++ '\n' :: text) := by
  induction row with
  | nil => exact TokenText.skip '\n' ts text (by decide) h
  | cons b row ih =>
    simp only [List.map_cons, List.flatten_cons, List.cons_append, List.append_assoc,
      List.singleton_append]
    refine TokenText.tok _ ' ' _ _ ?_ (by decide) ih
    cases b <;> decide

theorem tokenText_putGrid (g : List (List Bool)) {ts : List Int} {text : List Char}
    (h : TokenText ts text) : TokenText (gridBits g ++ ts) (putGrid g ++ text) := by
  induction g with
  | nil => simpa [gridBits, putGrid] using h
  | cons row g ih =>
    have := tokenText_putRow row ih
    simpa [gridBits, putGrid, List.append_assoc] using this

/-! ## Grids in row-major order -/

theorem gridBits_length (c : Nat) :
    ∀ g : List (List Bool), (∀ row ∈ g, row.length = c) → (gridBits g).length = g.length * c := by
  intro g
  induction g with
  | nil => intro _; simp [gridBits]
  | cons row g ih =>
    intro h
    have h1 := h row (List.mem_cons_self _ _)
    have h2 := ih (fun r hr => h r (List.mem_cons_of_mem _ hr))
    simp only [gridBits, List.flatten_cons, List.map_append, List.length_append,
      List.length_map, List.length_cons] at h2 ⊢
    rw [h1, h2]
    ring

theorem gridBits_getD (c : Nat) :
    ∀ (g : List (List Bool)) (i j : Nat), (∀ row ∈ g, row.length = c) → i < g.length → j < c →
      (gridBits g).getD (i * c + j) 0 = if (g.getD i []).getD j false then 1 else 0 := by
  intro g
  induction g with
  | nil => intro i j _ hi; simp at hi
  | cons row g ih =>
    intro i j h hi hj
    have h1 := h row (List.mem_cons_self _ _)
    have hbits : gridBits (row :: g) =
        row.map (fun b => if b then (1 : Int) else 0) ++ gridBits g := by
      simp [gridBits]
    rw [hbits]
    cases i with
    | zero =>
      have hlt : j < (row.map (fun b => if b then (1 : Int) else 0)).length := by
        simp; omega
      simp only [Nat.zero_mul, Nat.zero_add, List.getD_eq_getElem?_getD,
        List.getElem?_append_left hlt, List.getElem?_map, List.getElem?_cons_zero,
        Option.getD_some]
      have hj2 : j < row.length := by omega
      simp [List.getElem?_eq_getElem hj2]
    | succ k =>
      have hk : k < g.length := by simpa using hi
      have hle : (row.map (fun b => if b then (1 : Int) else 0)).length ≤ (k + 1) * c + j := by
        simp only [List.length_map, h1, Nat.add_mul, Nat.one_mul]; omega
      have hidx : (k + 1) * c + j - (row.map (fun b => if b then (1 : Int) else 0)).length =
          k * c + j := by
        simp only [List.length_map, h1, Nat.add_mul, Nat.one_mul]; omega
      have := ih k j (fun r hr => h r (List.mem_cons_of_mem _ hr)) hk hj
      simp only [List.getD_eq_getElem?_getD] at this ⊢
      rw [List.getElem?_append_right hle, hidx, this]
      simp

theorem grid_ext {g1 g2 : List (List Bool)} {rows cols : Int} (h1 : IsGrid g1 rows cols)
    (h2 : IsGrid g2 rows cols)
    (h : ∀ i j, 0 ≤ i → i < rows → 0 ≤ j → j < cols → cellAt false g1 i j = cellAt false g2 i j) :
    g1 = g2 := by
  have hl1 := h1.1
  have hl2 := h2.1
  apply List.ext_getElem (by omega)
  intro n hn1 hn2
  have hr1 := h1.2 _ (List.getElem_mem hn1)
  have hr2 := h2.2 _ (List.getElem_mem hn2)
  apply List.ext_getElem (by omega)
  intro m hm1 hm2
  have := h n m (by omega) (by omega) (by omega) (by omega)
  unfold cellAt at this
  rw [if_neg (by omega), if_neg (by omega)] at this
  simpa [List.getD_eq_getElem?_getD, List.getElem?_eq_getElem hn1, List.getElem?_eq_getElem hn2,
    List.getElem?_eq_getElem hm1, List.getElem?_eq_getElem hm2] using this

/-- A reading loop over the text of a saved grid rebuilds that grid and stops at the text
behind it. -/
theorem readCells_tokenText {rows cols : Int} {g0 G : List (List Bool)} (hg0 : IsGrid g0 rows cols)
    (hG : IsGrid G rows cols) {ts : List Int} {text : List Char} (x : Int)
    (h : TokenText (gridBits G ++ ts) text) :
    ∃ text2 x2, readCells rows cols (g0, { rest := text, failed := false }, x) =
      (G, { rest := text2, failed := false }, x2) ∧ TokenText ts text2 := by
  obtain ⟨s1, s2, s3⟩ := readCells_spec rows cols g0 hg0 ({ rest := text, failed := false }, x)
  have hrows : 0 ≤ rows := by have := hG.1; omega
  have hrowlen : ∀ row ∈ G, row.length = cols.toNat := by
    intro row hrow; have := hG.2 row hrow; omega
  have hlen : (gridBits G).length = (rows * cols).toNat := by
    rw [gridBits_length cols.toNat G hrowlen]
    by_cases hc : 0 ≤ cols
    · have e : ((G.length * cols.toNat : Nat) : Int) = rows * cols := by
        push_cast; rw [hG.1, Int.toNat_of_nonneg hc]
      omega
    · have hG0 : G.length = 0 := by
        by_contra hne
        have hpos : 0 < G.length := Nat.pos_of_ne_zero hne
        have := hG.2 _ (List.getElem_mem hpos)
        omega
      have hr0 : rows = 0 := by have := hG.1; omega
      simp [hG0, hr0]
  obtain ⟨text2, x2, h1, h2⟩ := TokenText.runExtract_state (gridBits G) x h
  rw [hlen] at h1
  refine ⟨text2, x2, ?_, h2⟩
  have hfst : (readCells rows cols (g0, { rest := text, failed := false }, x)).1 = G := by
    apply grid_ext s1 hG
    intro i j hi0 hi1 hj0 hj1
    rw [s3 i j hi0 hi1 hj0 hj1]
    have hc : 0 ≤ cols := by omega
    have hidx : (i * cols + j).toNat = i.toNat * cols.toNat + j.toNat := by
      have e : ((i.toNat * cols.toNat + j.toNat : Nat) : Int) = i * cols + j := by
        push_cast
        rw [Int.toNat_of_nonneg hi0, Int.toNat_of_nonneg hc, Int.toNat_of_nonneg hj0]
      omega
    have hlt : i * cols + j < rows * cols := by nlinarith
    have h0 : 0 ≤ i * cols := Int.mul_nonneg hi0 hc
    have hk2 : (i * cols + j).toNat < (gridBits G).length := by
      rw [hlen]; omega
    have hk : (i * cols + j).toNat < (gridBits G ++ ts).length := by
      rw [List.length_append]; omega
    rw [h.runExtract_val _ x hk]
    have hget : (gridBits G ++ ts).getD (i * cols + j).toNat 0 =
        (gridBits G).getD (i * cols + j).toNat 0 := by
      simp only [List.getD_eq_getElem?_getD, List.getElem?_append_left hk2]
    have hGl := hG.1
    rw [hget, hidx, gridBits_getD cols.toNat G i.toNat j.toNat hrowlen (by omega) (by omega)]
    have hneg : ¬ (i < 0 ∨ j < 0) := by omega
    simp only [cellAt, hneg, if_false]
    cases (G.getD i.toNat []).getD j.toNat false <;> simp
  rw [← hfst, ← h1, ← s2]

/-! ## Save, then load -/

theorem saveText_eq (B : Board) :
    B.saveText = putInt B.rows ++ ' ' :: (putInt B.cols ++ ' ' :: (putInt B.totalMines ++
      '\n' :: (putGrid B.mine ++ (putGrid B.revealed ++ (putGrid B.flagged ++ []))))) := by
  simp [Board.saveText, List.append_assoc]

theorem readHeader_saveText (B b0 : Board) (hri : IsInt32 B.rows) (hci : IsInt32 B.cols)
    (hti : IsInt32 B.totalMines) :
    readHeader b0 B.saveText =
      ({ rest := '\n' :: (putGrid B.mine ++ (putGrid B.revealed ++ (putGrid B.flagged ++ []))),
         failed := false }, B.rows, B.cols, B.totalMines) := by
  unfold readHeader
  rw [saveText_eq]
  simp only []
  rw [extractInt_putInt B.rows ' ' _ _ hri (by decide)]
  simp only []
  rw [extractInt_skip ' ' _ _ (by decide), extractInt_putInt B.cols ' ' _ _ hci (by decide)]
  simp only []
  rw [extractInt_skip ' ' _ _ (by decide), extractInt_putInt B.totalMines '\n' _ _ hti (by decide)]

/-- The board that loading the save of `B` produces in a board whose `flagged` grid has the
dimensions of `B`. -/
theorem loadFromFile_saveText (B b0 : Board) (val0 : Int) (hr : 0 < B.rows) (hc : 0 < B.cols)
    (hwf : B.WellFormed) (hri : IsInt32 B.rows) (hci : IsInt32 B.cols)
    (hti : IsInt32 B.totalMines) (hf : IsGrid b0.flagged B.rows B.cols) :
    b0.loadFromFile (some B.saveText) val0 =
      some (true, { B with
        lost := false
        neighbors :=
          ({ B with neighbors := mkGrid B.rows B.cols 0 } : Board).countNeighbors.neighbors }) := by
  rw [Board.loadFromFile_eq, readHeader_saveText B b0 hri hci hti]
  simp only []
  rw [if_neg (by simp), if_neg (by omega)]
  have hg := isGrid_mkGrid B.rows B.cols false (le_of_lt hr) (le_of_lt hc)
  have htok : TokenText (gridBits B.mine ++ (gridBits B.revealed ++ (gridBits B.flagged ++ [])))
      ('\n' :: (putGrid B.mine ++ (putGrid B.revealed ++ (putGrid B.flagged ++ [])))) :=
    TokenText.skip '\n' _ _ (by decide)
      (tokenText_putGrid _ (tokenText_putGrid _ (tokenText_putGrid _ (TokenText.done []))))
  obtain ⟨t2, x2, rc1, tok2⟩ := readCells_tokenText hg hwf.1 val0 htok
  obtain ⟨t3, x3, rc2, tok3⟩ := readCells_tokenText hg hwf.2.1 x2 tok2
  obtain ⟨t4, x4, rc3, _⟩ := readCells_tokenText hf hwf.2.2 x3 tok3
  unfold Board.loadedBoard
  rw [rc1]
  simp only []
  rw [rc2]
  simp only []
  rw [rc3]
  simp only [Board.countNeighbors_eq, Board.countAround, Board.inBounds]

/-- Save, then load, into a board whose `flagged` grid already has the dimensions of the saved
board `B`: the load succeeds and yields `rows`, `cols`, `totalMines`, `mine`, `revealed` and
`flagged` identical to those of `B`, the neighbour counts recomputed from the mine grid of
`B`, and `lost` false. -/
theorem save_load_same_dims (B b0 : Board) (val0 : Int) (hr : 0 < B.rows) (hc : 0 < B.cols)
    (hwf : B.WellFormed) (hri : IsInt32 B.rows) (hci : IsInt32 B.cols)
    (hti : IsInt32 B.totalMines) (hf : IsGrid b0.flagged B.rows B.cols) :
    ∃ b2 : Board, b0.loadFromFile (B.saveToFile true) val0 = some (true, b2) ∧
      b2.rows = B.rows ∧ b2.cols = B.cols ∧ b2.totalMines = B.totalMines ∧
      b2.mine = B.mine ∧ b2.revealed = B.revealed ∧ b2.flagged = B.flagged ∧
      b2.neighbors =
        ({ B with neighbors := mkGrid B.rows B.cols 0 } : Board).countNeighbors.neighbors ∧
      (∀ r c, B.inBounds r c = true → cellAt false B.mine r c = false →
        cellAt 0 b2.neighbors r c = adjacentMines B r c) ∧
      b2.lost = false := by
  refine ⟨_, loadFromFile_saveText B b0 val0 hr hc hwf hri hci hti hf,
    rfl, rfl, rfl, rfl, rfl, rfl, rfl, ?_, rfl⟩
  intro r c hin hm
  have h := countNeighbors_safe_cell ({ B with neighbors := mkGrid B.rows B.cols 0 } : Board)
    (isGrid_mkGrid B.rows B.cols 0 (le_of_lt hr) (le_of_lt hc)) r c
    (by rw [Board.countNeighbors_eq]; exact hin) (by rw [Board.countNeighbors_eq]; exact hm)
  rw [h]
  exact adjacentMines_congr _ _ (by rw [Board.countNeighbors_eq])
    (by rw [Board.countNeighbors_eq]) (by rw [Board.countNeighbors_eq]) r c

/-- An instance of the round trip into a board of the same dimensions: the sample board after
a loss is saved and loaded back into the sample board. -/
theorem save_load_same_dims_sample :
    ∃ b2 : Board,
      sampleBoard.loadFromFile (({ sampleBoard with lost := true } : Board).saveToFile true) 0 =
        some (true, b2) ∧
      b2.rows = 3 ∧ b2.cols = 3 ∧ b2.totalMines = 1 ∧
      b2.mine = sampleBoard.mine ∧ b2.revealed = sampleBoard.revealed ∧
      b2.flagged = sampleBoard.flagged ∧
      b2.neighbors =
        ({ sampleBoard with neighbors := mkGrid 3 3 0 } : Board).countNeighbors.neighbors ∧
      (∀ r c, sampleBoard.inBounds r c = true → cellAt false sampleBoard.mine r c = false →
        cellAt 0 b2.neighbors r c = adjacentMines sampleBoard r c) ∧
      b2.lost = false :=
  save_load_same_dims { sampleBoard with lost := true } sampleBoard 0 (by decide) (by decide)
    (by decide) (by decide) (by decide) (by decide) (by decide)

/-- C7, at the failing input: the well-formed 3 x 3 sample board is saved and the text is
loaded into the well-formed default 6 x 6 board.  The load succeeds and `rows`, `cols`,
`totalMines`, `mine`, `revealed` and the neighbour counts are those of the sample board, but
`flagged` is still the 6 x 6 grid of the receiving board and not the `flagged` grid of the
board that was saved. -/
theorem save_load_keeps_receiver_flagged :
    Board.loadFromFile defaultBoard (sampleBoard.saveToFile true) 0 =
      some (true, { sampleBoard with flagged := mkGrid 6 6 false }) ∧
    defaultBoard.flagged = mkGrid 6 6 false ∧
    mkGrid 6 6 false ≠ sampleBoard.flagged ∧
    decide sampleBoard.WellFormed = true ∧ decide defaultBoard.WellFormed = true ∧
    decide ({ sampleBoard with flagged := mkGrid 6 6 false } : Board).WellFormed = false := by
  decide

/-! ## Flags -/

namespace Board

theorem toggleFlag_of_guard (b : Board) (r c : Int)
    (h : b.inBounds r c = false ∨ cellAt false b.revealed r c = true) :
    b.toggleFlag r c = b := by
  unfold toggleFlag
  rw [if_pos]
  rcases h with h | h <;> simp [h]

theorem toggleFlag_of_open (b : Board) (r c : Int) (hin : b.inBounds r c = true)
    (hr : cellAt false b.revealed r c = false) :
    b.toggleFlag r c =
      { b with flagged := setCell b.flagged r c (!cellAt false b.flagged r c) } := by
  unfold toggleFlag
  simp [hin, hr]

end Board

/-- C14: on a well-formed board, `toggleFlag` returns the board unchanged when `(r, c)` is out
of bounds or the cell is revealed; otherwise it negates `flagged[r][c]` and changes nothing
else: every other entry of `flagged` and all other fields are as before.  Nothing in it counts
the flagged cells. -/
theorem toggleFlag_frame (b : Board) (r c : Int) (hwf : b.WellFormed) :
    ((b.inBounds r c = false ∨ cellAt false b.revealed r c = true) → b.toggleFlag r c = b) ∧
    (b.inBounds r c = true → cellAt false b.revealed r c = false →
      cellAt false (b.toggleFlag r c).flagged r c = !cellAt false b.flagged r c ∧
      (∀ i j, ¬ (i = r ∧ j = c) →
        cellAt false (b.toggleFlag r c).flagged i j = cellAt false b.flagged i j) ∧
      IsGrid (b.toggleFlag r c).flagged b.rows b.cols ∧
      (b.toggleFlag r c).mine = b.mine ∧ (b.toggleFlag r c).revealed = b.revealed ∧
      (b.toggleFlag r c).neighbors = b.neighbors ∧ (b.toggleFlag r c).lost = b.lost ∧
      (b.toggleFlag r c).rows = b.rows ∧ (b.toggleFlag r c).cols = b.cols ∧
      (b.toggleFlag r c).totalMines = b.totalMines) := by
  refine ⟨Board.toggleFlag_of_guard b r c, ?_⟩
  intro hin hr
  rw [Board.toggleFlag_of_open b r c hin hr]
  obtain ⟨h1, h2, h3, h4⟩ := (Board.inBounds_iff b r c).mp hin
  refine ⟨?_, ?_, isGrid_setCell hwf.2.2 r c _, rfl, rfl, rfl, rfl, rfl, rfl, rfl⟩
  · simp only []
    rw [cellAt_setCell_of_isGrid hwf.2.2 false r c r c _ h1 h2 h3 h4, if_pos ⟨rfl, rfl⟩]
  · intro i j hij
    simp only []
    rw [cellAt_setCell_of_isGrid hwf.2.2 false r c i j _ h1 h2 h3 h4, if_neg hij]

/-- Witness for C14: the cell `b2` of the sample board. -/
theorem toggleFlag_frame_witness :
    ((sampleBoard.inBounds 1 1 = false ∨ cellAt false sampleBoard.revealed 1 1 = true) →
      sampleBoard.toggleFlag 1 1 = sampleBoard) ∧
    (sampleBoard.inBounds 1 1 = true → cellAt false sampleBoard.revealed 1 1 = false →
      cellAt false (sampleBoard.toggleFlag 1 1).flagged 1 1 =
        !cellAt false sampleBoard.flagged 1 1 ∧
      (∀ i j, ¬ (i = 1 ∧ j = 1) →
        cellAt false (sampleBoard.toggleFlag 1 1).flagged i j =
          cellAt false sampleBoard.flagged i j) ∧
      IsGrid (sampleBoard.toggleFlag 1 1).flagged sampleBoard.rows sampleBoard.cols ∧
      (sampleBoard.toggleFlag 1 1).mine = sampleBoard.mine ∧
      (sampleBoard.toggleFlag 1 1).revealed = sampleBoard.revealed ∧
      (sampleBoard.toggleFlag 1 1).neighbors = sampleBoard.neighbors ∧
      (sampleBoard.toggleFlag 1 1).lost = sampleBoard.lost ∧
      (sampleBoard.toggleFlag 1 1).rows = sampleBoard.rows ∧
      (sampleBoard.toggleFlag 1 1).cols = sampleBoard.cols ∧
      (sampleBoard.toggleFlag 1 1).totalMines = sampleBoard.totalMines) :=
  toggleFlag_frame sampleBoard 1 1 (by decide)

theorem setCell_setCell_not {g : List (List Bool)} {rows cols : Int} (hg : IsGrid g rows cols)
    (r c : Int) (hr0 : 0 ≤ r) (hr1 : r < rows) (hc0 : 0 ≤ c) (hc1 : c < cols) :
    setCell (setCell g r c (!cellAt false g r c)) r c
      (!cellAt false (setCell g r c (!cellAt false g r c)) r c) = g := by
  have hg1 := isGrid_setCell hg r c (!cellAt false g r c)
  have hv : cellAt false (setCell g r c (!cellAt false g r c)) r c = !cellAt false g r c := by
    rw [cellAt_setCell_of_isGrid hg false r c r c _ hr0 hr1 hc0 hc1, if_pos ⟨rfl, rfl⟩]
  rw [hv]
  apply grid_ext (isGrid_setCell hg1 r c _) hg
  intro i j _ _ _ _
  rw [cellAt_setCell_of_isGrid hg1 false r c i j _ hr0 hr1 hc0 hc1]
  by_cases hij : i = r ∧ j = c
  · rw [if_pos hij, hij.1, hij.2]
    simp
  · rw [if_neg hij, cellAt_setCell_of_isGrid hg false r c i j _ hr0 hr1 hc0 hc1, if_neg hij]

/-- C15: on a well-formed board two calls `toggleFlag(r, c)` in a row give back the original
board.  On an in-bounds cell that is neither revealed nor flagged the cell is flagged after
the first call and not flagged after the second; on a revealed cell both calls return the
board unchanged. -/
theorem toggleFlag_twice (b : Board) (r c : Int) (hwf : b.WellFormed) :
    (b.toggleFlag r c).toggleFlag r c = b ∧
    (b.inBounds r c = true → cellAt false b.revealed r c = false →
      cellAt false b.flagged r c = false →
      cellAt false (b.toggleFlag r c).flagged r c = true ∧
      cellAt false ((b.toggleFlag r c).toggleFlag r c).flagged r c = false) ∧
    (cellAt false b.revealed r c = true →
      b.toggleFlag r c = b ∧ (b.toggleFlag r c).toggleFlag r c = b) := by
  have key : (b.toggleFlag r c).toggleFlag r c = b := by
    by_cases hg : b.inBounds r c = false ∨ cellAt false b.revealed r c = true
    · rw [Board.toggleFlag_of_guard b r c hg, Board.toggleFlag_of_guard b r c hg]
    · have hin : b.inBounds r c = true := by
        cases h : b.inBounds r c with
        | true => rfl
        | false => exact absurd (Or.inl h) hg
      have hr : cellAt false b.revealed r c = false := by
        cases h : cellAt false b.revealed r c with
        | false => rfl
        | true => exact absurd (Or.inr h) hg
      obtain ⟨h1, h2, h3, h4⟩ := (Board.inBounds_iff b r c).mp hin
      rw [Board.toggleFlag_of_open b r c hin hr]
      rw [Board.toggleFlag_of_open
        { b with flagged := setCell b.flagged r c (!cellAt false b.flagged r c) } r c hin hr]
      simp only []
      rw [setCell_setCell_not hwf.2.2 r c h1 h2 h3 h4]
  refine ⟨key, ?_, ?_⟩
  · intro hin hr hf
    obtain ⟨h1, h2, h3, h4⟩ := (Board.inBounds_iff b r c).mp hin
    refine ⟨?_, by rw [key]; exact hf⟩
    rw [Board.toggleFlag_of_open b r c hin hr]
    simp only []
    rw [cellAt_setCell_of_isGrid hwf.2.2 false r c r c _ h1 h2 h3 h4, if_pos ⟨rfl, rfl⟩, hf]
    rfl
  · intro hr
    have h := Board.toggleFlag_of_guard b r c (Or.inr hr)
    exact ⟨h, by rw [h, h]⟩

/-- Witness for C15: the cell `b2` of the sample board. -/
theorem toggleFlag_twice_witness :
    (sampleBoard.toggleFlag 1 1).toggleFlag 1 1 = sampleBoard ∧
    (sampleBoard.inBounds 1 1 = true → cellAt false sampleBoard.revealed 1 1 = false →
      cellAt false sampleBoard.flagged 1 1 = false →
      cellAt false (sampleBoard.toggleFlag 1 1).flagged 1 1 = true ∧
      cellAt false ((sampleBoard.toggleFlag 1 1).toggleFlag 1 1).flagged 1 1 = false) ∧
    (cellAt false sampleBoard.revealed 1 1 = true →
      sampleBoard.toggleFlag 1 1 = sampleBoard ∧
      (sampleBoard.toggleFlag 1 1).toggleFlag 1 1 = sampleBoard) :=
  toggleFlag_twice sampleBoard 1 1 (by decide)

/-! ## Reachable states -/

namespace Board

theorem revealCell_cases (b : Board) (r c : Int) :
    b.revealCell r c = b ∨
    (b.inBounds r c = true ∧ cellAt false b.revealed r c = false ∧
      cellAt false b.flagged r c = false ∧
      ((cellAt false b.mine r c = false ∧
          b.revealCell r c = { b with revealed := setCell b.revealed r c true }) ∨
        (cellAt false b.mine r c = true ∧
          b.revealCell r c = { b with
            lost := true
            revealed := (fillGrid b.rows b.cols
              (fun i j => if cellAt false b.mine i j then some true else none)
              (setCell b.revealed r c true)) }))) := by
  by_cases hg : b.inBounds r c = false ∨ cellAt false b.revealed r c = true ∨
      cellAt false b.flagged r c = true
  · exact Or.inl (revealCell_of_guard b r c hg)
  · right
    have hin : b.inBounds r c = true := by
      cases h : b.inBounds r c with
      | true => rfl
      | false => exact absurd (Or.inl h) hg
    have hr : cellAt false b.revealed r c = false := by
      cases h : cellAt false b.revealed r c with
      | false => rfl
      | true => exact absurd (Or.inr (Or.inl h)) hg
    have hf : cellAt false b.flagged r c = false := by
      cases h : cellAt false b.flagged r c with
      | false => rfl
      | true => exact absurd (Or.inr (Or.inr h)) hg
    refine ⟨hin, hr, hf, ?_⟩
    cases hm : cellAt false b.mine r c with
    | false => exact Or.inl ⟨rfl, revealCell_of_safe b r c hin hr hf hm⟩
    | true => exact Or.inr ⟨rfl, revealCell_of_mine b r c hin hr hf hm⟩

theorem toggleFlag_cases (b : Board) (r c : Int) :
    b.toggleFlag r c = b ∨
    (b.inBounds r c = true ∧ cellAt false b.revealed r c = false ∧
      b.toggleFlag r c =
        { b with flagged := setCell b.flagged r c (!cellAt false b.flagged r c) }) := by
  by_cases hg : b.inBounds r c = false ∨ cellAt false b.revealed r c = true
  · exact Or.inl (toggleFlag_of_guard b r c hg)
  · right
    have hin : b.inBounds r c = true := by
      cases h : b.inBounds r c with
      | true => rfl
      | false => exact absurd (Or.inl h) hg
    have hr : cellAt false b.revealed r c = false := by
      cases h : cellAt false b.revealed r c with
      | false => rfl
      | true => exact absurd (Or.inr h) hg
    exact ⟨hin, hr, toggleFlag_of_open b r c hin hr⟩

end Board

theorem fresh_gameInv {b : Board} (h : Fresh b) : b.GameInv := by
  obtain ⟨rows, cols, mines, idx, hr, hc, _, hm1, hperm, rfl⟩ := h
  have hp := Board.placement_spec rows cols mines idx hr hc hm1 hperm
  simp only [] at hp
  have hrev : (Board.new rows cols mines idx).revealed = mkGrid rows cols false := by
    rw [Board.new_eq, Board.countNeighbors_eq]
  have hfl : (Board.new rows cols mines idx).flagged = mkGrid rows cols false := by
    rw [Board.new_eq, Board.countNeighbors_eq]
  have hmi : IsGrid (Board.new rows cols mines idx).mine rows cols := by
    rw [Board.new_eq, Board.countNeighbors_eq]; exact hp.1
  have hrows : (Board.new rows cols mines idx).rows = rows := by
    rw [Board.new_eq, Board.countNeighbors_eq]
  have hcols : (Board.new rows cols mines idx).cols = cols := by
    rw [Board.new_eq, Board.countNeighbors_eq]
  refine ⟨⟨?_, ?_, ?_⟩, ?_, ?_⟩
  · rw [hrows, hcols]; exact hmi
  · rw [hrows, hcols, hrev]; exact isGrid_mkGrid rows cols false (le_of_lt hr) (le_of_lt hc)
  · rw [hrows, hcols, hfl]; exact isGrid_mkGrid rows cols false (le_of_lt hr) (le_of_lt hc)
  · intro i j _ _ h
    rw [hrev, cellAt_mkGrid] at h
    exact Bool.noConfusion h
  · intro i j _ _ h
    rw [hrev, cellAt_mkGrid] at h
    exact Bool.noConfusion h

theorem revealCell_gameInv {b : Board} (h : b.GameInv) (r c : Int) :
    (b.revealCell r c).GameInv := by
  obtain ⟨hwf, h1, h2⟩ := h
  rcases Board.revealCell_cases b r c with he | ⟨hin, hr, hf, ⟨hm, he⟩ | ⟨hm, he⟩⟩
  · rw [he]; exact ⟨hwf, h1, h2⟩
  · obtain ⟨b1, b2, b3, b4⟩ := (Board.inBounds_iff b r c).mp hin
    have hcell : ∀ i j, cellAt false (setCell b.revealed r c true) i j =
        if i = r ∧ j = c then true else cellAt false b.revealed i j :=
      fun i j => cellAt_setCell_of_isGrid hwf.2.1 false r c i j true b1 b2 b3 b4
    rw [he]
    refine ⟨⟨hwf.1, isGrid_setCell hwf.2.1 r c true, hwf.2.2⟩, ?_, ?_⟩
    · intro i j hij hmij hrev
      simp only [] at hrev hmij ⊢
      rw [hcell] at hrev
      by_cases e : i = r ∧ j = c
      · rw [e.1, e.2, hm] at hmij; exact Bool.noConfusion hmij
      · rw [if_neg e] at hrev; exact h1 i j hij hmij hrev
    · intro i j hij hfij hrev
      simp only [] at hrev hfij ⊢
      rw [hcell] at hrev
      by_cases e : i = r ∧ j = c
      · rw [e.1, e.2, hf] at hfij; exact Bool.noConfusion hfij
      · rw [if_neg e] at hrev; exact h2 i j hij hfij hrev
  · obtain ⟨b1, b2, b3, b4⟩ := (Board.inBounds_iff b r c).mp hin
    have hg := isGrid_setCell hwf.2.1 r c true
    have hspec := fillGrid_spec false b.rows b.cols
      (fun i j => if cellAt false b.mine i j then some true else none) _ hg
    have hcell : ∀ i j, cellAt false (setCell b.revealed r c true) i j =
        if i = r ∧ j = c then true else cellAt false b.revealed i j :=
      fun i j => cellAt_setCell_of_isGrid hwf.2.1 false r c i j true b1 b2 b3 b4
    rw [he]
    refine ⟨⟨hwf.1, hspec.1, hwf.2.2⟩, fun _ _ _ _ _ => rfl, ?_⟩
    intro i j hij hfij hrev
    have hsp := hspec.2 i j
    rw [if_pos ((Board.inBounds_iff b i j).mp hij)] at hsp
    simp only [] at hsp
    show cellAt false b.mine i j = true ∧ true = true
    refine ⟨?_, rfl⟩
    cases hmij : cellAt false b.mine i j with
    | true => rfl
    | false =>
      have hrev2 : cellAt false (fillGrid b.rows b.cols
          (fun i j => if cellAt false b.mine i j then some true else none)
          (setCell b.revealed r c true)) i j = true := hrev
      rw [hsp, hmij] at hrev2
      simp only [Bool.false_eq_true, if_false, Option.getD_none] at hrev2
      rw [hcell] at hrev2
      by_cases e : i = r ∧ j = c
      · rw [e.1, e.2, hm] at hmij; exact Bool.noConfusion hmij
      · rw [if_neg e] at hrev2
        have := (h2 i j hij hfij hrev2).1
        rw [hmij] at this
        exact this

theorem toggleFlag_gameInv {b : Board} (h : b.GameInv) (r c : Int) :
    (b.toggleFlag r c).GameInv := by
  obtain ⟨hwf, h1, h2⟩ := h
  rcases Board.toggleFlag_cases b r c with he | ⟨hin, hr, he⟩
  · rw [he]; exact ⟨hwf, h1, h2⟩
  · obtain ⟨b1, b2, b3, b4⟩ := (Board.inBounds_iff b r c).mp hin
    rw [he]
    refine ⟨⟨hwf.1, hwf.2.1, isGrid_setCell hwf.2.2 r c _⟩, h1, ?_⟩
    intro i j hij hfij hrev
    simp only [] at hrev hfij ⊢
    rw [cellAt_setCell_of_isGrid hwf.2.2 false r c i j _ b1 b2 b3 b4] at hfij
    by_cases e : i = r ∧ j = c
    · rw [e.1, e.2, hr] at hrev; exact Bool.noConfusion hrev
    · rw [if_neg e] at hfij; exact h2 i j hij hfij hrev

theorem play_gameInv (ms : List Move) : ∀ {b : Board}, b.GameInv → (b.play ms).GameInv := by
  induction ms with
  | nil => intro b h; exact h
  | cons m ms ih =>
    intro b h
    show (Board.play (b.step m) ms).GameInv
    apply ih
    cases m with
    | reveal r c => exact revealCell_gameInv h r c
    | flag r c => exact toggleFlag_gameInv h r c

theorem reachable_gameInv {b : Board} (h : Reachable b) : b.GameInv := by
  obtain ⟨b0, ms, hf, rfl⟩ := h
  exact play_gameInv ms (fresh_gameInv hf)

theorem lost_revealCell {b : Board} (h : b.lost = true) (r c : Int) :
    (b.revealCell r c).lost = true := by
  rcases Board.revealCell_cases b r c with he | ⟨_, _, _, ⟨_, he⟩ | ⟨_, he⟩⟩ <;> rw [he]
  · exact h
  · exact h

theorem lost_toggleFlag {b : Board} (h : b.lost = true) (r c : Int) :
    (b.toggleFlag r c).lost = true := by
  rcases Board.toggleFlag_cases b r c with he | ⟨_, _, he⟩ <;> rw [he] <;> exact h

theorem lost_play (ms : List Move) : ∀ {b : Board}, b.lost = true → (b.play ms).lost = true := by
  induction ms with
  | nil => intro b h; exact h
  | cons m ms ih =>
    intro b h
    show (Board.play (b.step m) ms).lost = true
    apply ih
    cases m with
    | reveal r c => exact lost_revealCell h r c
    | flag r c => exact lost_toggleFlag h r c

/-- Counterexample for C16: on the 1 x 1 board whose cell is a mine, after `revealCell(0, 0)`
the state is reachable and `isWin` is true, yet the mine cell is revealed, so the unrevealed
cells are not the mine cells. -/
theorem isWin_with_revealed_mine :
    Reachable (mineOnlyBoard.play [Move.reveal 0 0]) ∧
    (mineOnlyBoard.play [Move.reveal 0 0]).isWin = true ∧
    ¬ (∀ r c : Int, (mineOnlyBoard.play [Move.reveal 0 0]).inBounds r c = true →
        (cellAt false (mineOnlyBoard.play [Move.reveal 0 0]).revealed r c = false ↔
          cellAt false (mineOnlyBoard.play [Move.reveal 0 0]).mine r c = true)) := by
  refine ⟨⟨mineOnlyBoard, [Move.reveal 0 0],
    ⟨1, 1, 1, [0], by decide, by decide, by decide, by decide, by decide, rfl⟩, rfl⟩,
    by decide, ?_⟩
  intro h
  exact absurd (h 0 0 (by decide)) (by decide)

/-- C16, amended: in every state reachable from a freshly constructed board by `revealCell`
and `toggleFlag` calls, `isWin` is true exactly when every unrevealed cell is a mine; as long
as `lost` is false this is the same as the unrevealed cells being exactly the mine cells. -/
theorem isWin_iff_unrevealed_are_mines (b : Board) (h : Reachable b) :
    (b.isWin = true ↔
      ∀ r c : Int, b.inBounds r c = true → cellAt false b.revealed r c = false →
        cellAt false b.mine r c = true) ∧
    (b.lost = false →
      (b.isWin = true ↔
        ∀ r c : Int, b.inBounds r c = true →
          (cellAt false b.revealed r c = false ↔ cellAt false b.mine r c = true))) := by
  have hinv := reachable_gameInv h
  have hsub : b.isWin = true ↔
      ∀ r c : Int, b.inBounds r c = true → cellAt false b.revealed r c = false →
        cellAt false b.mine r c = true := by
    rw [Board.isWin_iff]
    constructor
    · intro hw r c hin hr
      cases hm : cellAt false b.mine r c with
      | true => rfl
      | false => rw [hw r c hin hm] at hr; exact Bool.noConfusion hr
    · intro hw r c hin hm
      cases hr : cellAt false b.revealed r c with
      | true => rfl
      | false => rw [hw r c hin hr] at hm; exact Bool.noConfusion hm
  refine ⟨hsub, ?_⟩
  intro hl
  rw [hsub]
  constructor
  · intro hw r c hin
    refine ⟨hw r c hin, ?_⟩
    intro hm
    cases hr : cellAt false b.revealed r c with
    | false => rfl
    | true =>
      have := hinv.2.1 r c hin hm hr
      rw [hl] at this
      exact Bool.noConfusion this
  · intro hw r c hin hr
    exact (hw r c hin).mp hr

/-- Witness for C16: a 2 x 3 board after a flag and a reveal. -/
theorem isWin_iff_unrevealed_are_mines_witness :
    (((Board.new 2 3 2 [4, 0, 1, 2, 3, 5]).play [Move.flag 0 0, Move.reveal 0 1]).isWin = true ↔
      ∀ r c : Int,
        ((Board.new 2 3 2 [4, 0, 1, 2, 3, 5]).play
          [Move.flag 0 0, Move.reveal 0 1]).inBounds r c = true →
        cellAt false ((Board.new 2 3 2 [4, 0, 1, 2, 3, 5]).play
          [Move.flag 0 0, Move.reveal 0 1]).revealed r c = false →
        cellAt false ((Board.new 2 3 2 [4, 0, 1, 2, 3, 5]).play
          [Move.flag 0 0, Move.reveal 0 1]).mine r c = true) ∧
    (((Board.new 2 3 2 [4, 0, 1, 2, 3, 5]).play [Move.flag 0 0, Move.reveal 0 1]).lost = false →
      (((Board.new 2 3 2 [4, 0, 1, 2, 3, 5]).play
          [Move.flag 0 0, Move.reveal 0 1]).isWin = true ↔
        ∀ r c : Int,
          ((Board.new 2 3 2 [4, 0, 1, 2, 3, 5]).play
            [Move.flag 0 0, Move.reveal 0 1]).inBounds r c = true →
          (cellAt false ((Board.new 2 3 2 [4, 0, 1, 2, 3, 5]).play
              [Move.flag 0 0, Move.reveal 0 1]).revealed r c = false ↔
            cellAt false ((Board.new 2 3 2 [4, 0, 1, 2, 3, 5]).play
              [Move.flag 0 0, Move.reveal 0 1]).mine r c = true))) :=
  isWin_iff_unrevealed_are_mines _
    ⟨Board.new 2 3 2 [4, 0, 1, 2, 3, 5], [Move.flag 0 0, Move.reveal 0 1],
      ⟨2, 3, 2, [4, 0, 1, 2, 3, 5], by decide, by decide, by decide, by decide, by decide, rfl⟩,
      rfl⟩

/-- Counterexample for C18: on the 1 x 2 board with two mines, after `toggleFlag(0, 0)` and
`revealCell(0, 1)` the state is reachable and the cell `(0, 0)` is both flagged and
revealed. -/
theorem flagged_and_revealed_after_loss :
    Reachable (twoMineBoard.play [Move.flag 0 0, Move.reveal 0 1]) ∧
    (twoMineBoard.play [Move.flag 0 0, Move.reveal 0 1]).inBounds 0 0 = true ∧
    cellAt false (twoMineBoard.play [Move.flag 0 0, Move.reveal 0 1]).flagged 0 0 = true ∧
    cellAt false (twoMineBoard.play [Move.flag 0 0, Move.reveal 0 1]).revealed 0 0 = true := by
  refine ⟨⟨twoMineBoard, [Move.flag 0 0, Move.reveal 0 1],
    ⟨1, 2, 2, [0, 1], by decide, by decide, by decide, by decide, by decide, rfl⟩, rfl⟩,
    by decide, by decide, by decide⟩

/-- C18, amended: in every state reachable from a freshly constructed board by `revealCell`
and `toggleFlag` calls, a cell that is both flagged and revealed is a mine and `lost` is true;
so as long as `lost` is false no cell is both flagged and revealed. -/
theorem flagged_revealed_only_lost_mine (b : Board) (h : Reachable b) :
    (∀ r c : Int, b.inBounds r c = true → cellAt false b.flagged r c = true →
      cellAt false b.revealed r c = true → cellAt false b.mine r c = true ∧ b.lost = true) ∧
    (b.lost = false → ∀ r c : Int, b.inBounds r c = true →
      ¬ (cellAt false b.flagged r c = true ∧ cellAt false b.revealed r c = true)) := by
  have hinv := reachable_gameInv h
  refine ⟨hinv.2.2, ?_⟩
  intro hl r c hin ⟨hf, hr⟩
  have := (hinv.2.2 r c hin hf hr).2
  rw [hl] at this
  exact Bool.noConfusion this

/-- Witness for C18: the 1 x 2 board with two mines after a flag and the losing reveal. -/
theorem flagged_revealed_only_lost_mine_witness :
    (∀ r c : Int, (twoMineBoard.play [Move.flag 0 0, Move.reveal 0 1]).inBounds r c = true →
      cellAt false (twoMineBoard.play [Move.flag 0 0, Move.reveal 0 1]).flagged r c = true →
      cellAt false (twoMineBoard.play [Move.flag 0 0, Move.reveal 0 1]).revealed r c = true →
      cellAt false (twoMineBoard.play [Move.flag 0 0, Move.reveal 0 1]).mine r c = true ∧
        (twoMineBoard.play [Move.flag 0 0, Move.reveal 0 1]).lost = true) ∧
    ((twoMineBoard.play [Move.flag 0 0, Move.reveal 0 1]).lost = false →
      ∀ r c : Int, (twoMineBoard.play [Move.flag 0 0, Move.reveal 0 1]).inBounds r c = true →
        ¬ (cellAt false (twoMineBoard.play [Move.flag 0 0, Move.reveal 0 1]).flagged r c = true ∧
          cellAt false (twoMineBoard.play [Move.flag 0 0, Move.reveal 0 1]).revealed r c
            = true)) :=
  flagged_revealed_only_lost_mine _
    ⟨twoMineBoard, [Move.flag 0 0, Move.reveal 0 1],
      ⟨1, 2, 2, [0, 1], by decide, by decide, by decide, by decide, by decide, rfl⟩, rfl⟩

/-- C19: in every state reachable from a freshly constructed board by `revealCell` and
`toggleFlag` calls, a revealed mine cell implies that `lost` is true; and once `lost` is true
it is true after every further sequence of `revealCell` and `toggleFlag` calls. -/
theorem revealed_mine_implies_lost (b : Board) (h : Reachable b) :
    (∀ r c : Int, b.inBounds r c = true → cellAt false b.mine r c = true →
      cellAt false b.revealed r c = true → b.lost = true) ∧
    (b.lost = true → ∀ ms : List Move, (b.play ms).lost = true) :=
  ⟨(reachable_gameInv h).2.1, fun hl ms => lost_play ms hl⟩

/-- Witness for C19: the 1 x 2 board with two mines after a flag and the losing reveal. -/
theorem revealed_mine_implies_lost_witness :
    (∀ r c : Int, (twoMineBoard.play [Move.flag 0 0, Move.reveal 0 1]).inBounds r c = true →
      cellAt false (twoMineBoard.play [Move.flag 0 0, Move.reveal 0 1]).mine r c = true →
      cellAt false (twoMineBoard.play [Move.flag 0 0, Move.reveal 0 1]).revealed r c = true →
      (twoMineBoard.play [Move.flag 0 0, Move.reveal 0 1]).lost = true) ∧
    ((twoMineBoard.play [Move.flag 0 0, Move.reveal 0 1]).lost = true →
      ∀ ms : List Move,
        ((twoMineBoard.play [Move.flag 0 0, Move.reveal 0 1]).play ms).lost = true) :=
  revealed_mine_implies_lost _
    ⟨twoMineBoard, [Move.flag 0 0, Move.reveal 0 1],
      ⟨1, 2, 2, [0, 1], by decide, by decide, by decide, by decide, by decide, rfl⟩, rfl⟩

/-! ## Neighbour counts at mine cells, boards full of mines -/

/-- The neighbour grid after `countNeighbors` on a board whose neighbour grid was all zero:
mine cells keep the zero, the others hold the count of adjacent mines. -/
theorem countNeighbors_zero_cell (b : Board) (hr : 0 ≤ b.rows) (hc : 0 ≤ b.cols)
    (hn : b.neighbors = mkGrid b.rows b.cols 0) (r c : Int)
    (hin : b.countNeighbors.inBounds r c = true) :
    cellAt 0 b.countNeighbors.neighbors r c =
      if cellAt false b.countNeighbors.mine r c then 0
      else adjacentMines b.countNeighbors r c := by
  have hin2 : b.inBounds r c = true := by
    rw [Board.countNeighbors_eq] at hin; exact hin
  have hm : b.countNeighbors.mine = b.mine := by rw [Board.countNeighbors_eq]
  have hg : IsGrid b.neighbors b.rows b.cols := by rw [hn]; exact isGrid_mkGrid _ _ 0 hr hc
  rw [countNeighbors_cell b hg r c hin2, hm, hn, cellAt_mkGrid,
    adjacentMines_congr b.countNeighbors b (by rw [Board.countNeighbors_eq])
      (by rw [Board.countNeighbors_eq]) hm r c]

/-- Counterexample for C17: on the constructed 1 x 2 board with two mines the mine cell
`(0, 0)` has one adjacent mine and its entry in `neighbors` is 0. -/
theorem neighbors_zero_at_mine :
    twoMineBoard.inBounds 0 0 = true ∧ cellAt false twoMineBoard.mine 0 0 = true ∧
    cellAt 0 twoMineBoard.neighbors 0 0 = 0 ∧ adjacentMines twoMineBoard 0 0 = 1 := by
  decide

/-- C17, amended: after construction and after every successful load, for all cells `(r, c)`
of the board that are not mines `neighbors[r][c]` equals the exact count of true entries of
`mine` among the eight adjacent cells, and at the mine cells `neighbors[r][c]` is 0. -/
theorem neighbors_after_construction_or_load (b2 : Board)
    (horigin : (∃ rows cols mines idx, b2 = Board.new rows cols mines idx) ∨
      (∃ b file val0, Board.loadFromFile b file val0 = some (true, b2)))
    (r c : Int) (hin : b2.inBounds r c = true) :
    cellAt 0 b2.neighbors r c =
      if cellAt false b2.mine r c then 0 else adjacentMines b2 r c := by
  rcases horigin with ⟨rows, cols, mines, idx, rfl⟩ | ⟨b, file, val0, hload⟩
  · rw [Board.new_eq] at hin ⊢
    have hb : 0 ≤ r ∧ r < rows ∧ 0 ≤ c ∧ c < cols := by
      have := (Board.inBounds_iff _ r c).mp hin
      rw [Board.countNeighbors_eq] at this
      exact this
    exact countNeighbors_zero_cell _ (by show 0 ≤ rows; omega) (by show 0 ≤ cols; omega)
      rfl r c hin
  · cases file with
    | none => simp [Board.loadFromFile] at hload
    | some text =>
      obtain ⟨_, hr0, hc0, rfl⟩ := Board.loadFromFile_success hload
      exact countNeighbors_zero_cell _ hr0 hc0 rfl r c hin

/-- Witness for C17: the mine cell `a1` of a constructed 2 x 3 board. -/
theorem neighbors_after_construction_or_load_witness :
    cellAt 0 (Board.new 2 3 2 [4, 0, 1, 2, 3, 5]).neighbors 0 0 =
      if cellAt false (Board.new 2 3 2 [4, 0, 1, 2, 3, 5]).mine 0 0 then 0
      else adjacentMines (Board.new 2 3 2 [4, 0, 1, 2, 3, 5]) 0 0 :=
  neighbors_after_construction_or_load (Board.new 2 3 2 [4, 0, 1, 2, 3, 5])
    (Or.inl ⟨2, 3, 2, [4, 0, 1, 2, 3, 5], rfl⟩) 0 0 (by decide)

/-- C20: for `rows > 0` and `cols > 0`, the board constructed with `mines = rows * cols` has a
mine in every cell whatever the shuffle, no cell of it is revealed, `lost` is false, and
`isWin` is true. -/
theorem full_board_wins (rows cols : Int) (idx : List Int) (hr : 0 < rows) (hc : 0 < cols)
    (hperm : idx.Perm ((List.range (rows * cols).toNat).map Int.ofNat)) :
    (∀ r c : Int, (Board.new rows cols (rows * cols) idx).inBounds r c = true →
      cellAt false (Board.new rows cols (rows * cols) idx).mine r c = true) ∧
    (Board.new rows cols (rows * cols) idx).isWin = true ∧
    (∀ r c : Int, cellAt false (Board.new rows cols (rows * cols) idx).revealed r c = false) ∧
    (Board.new rows cols (rows * cols) idx).lost = false := by
  have hp := Board.placement_spec rows cols (rows * cols) idx hr hc le_rfl hperm
  simp only [] at hp
  have hmine : ∀ r c : Int, (Board.new rows cols (rows * cols) idx).inBounds r c = true →
      cellAt false (Board.new rows cols (rows * cols) idx).mine r c = true := by
    intro r c hin
    rw [Board.new_eq] at hin ⊢
    have hb : 0 ≤ r ∧ r < rows ∧ 0 ≤ c ∧ c < cols := by
      have := (Board.inBounds_iff _ r c).mp hin
      rw [Board.countNeighbors_eq] at this
      exact this
    rw [Board.countNeighbors_eq]
    simp only []
    rw [hp.2.2 r c hb.1 hb.2.1 hb.2.2.1 hb.2.2.2]
    have h0 : 0 ≤ r * cols := Int.mul_nonneg hb.1 (le_of_lt hc)
    have hlt : r * cols + c < rows * cols := by nlinarith
    have hmem : r * cols + c ∈ idx := by
      rw [hperm.mem_iff]
      simp only [List.mem_map, List.mem_range]
      exact ⟨(r * cols + c).toNat, by omega, by simp; omega⟩
    obtain ⟨k, hk⟩ := List.mem_iff_getElem?.mp hmem
    have hlen : idx.length = (rows * cols).toNat := by simpa using hperm.length_eq
    have hklt : k < idx.length := by
      by_contra hge
      rw [List.getElem?_eq_none (by omega)] at hk
      exact Option.noConfusion hk
    exact ⟨k, by omega, hk⟩
  refine ⟨hmine, ?_, ?_, ?_⟩
  · rw [Board.isWin_iff]
    intro r c hin hm
    rw [hmine r c hin] at hm
    exact Bool.noConfusion hm
  · intro r c
    rw [Board.new_eq, Board.countNeighbors_eq]
    exact cellAt_mkGrid false rows cols r c
  · rw [Board.new_eq, Board.countNeighbors_eq]

/-- Witness for C20: the 2 x 2 board with four mines and the shuffle outcome 2 0 3 1. -/
theorem full_board_wins_witness :
    (∀ r c : Int, (Board.new 2 2 (2 * 2) [2, 0, 3, 1]).inBounds r c = true →
      cellAt false (Board.new 2 2 (2 * 2) [2, 0, 3, 1]).mine r c = true) ∧
    (Board.new 2 2 (2 * 2) [2, 0, 3, 1]).isWin = true ∧
    (∀ r c : Int, cellAt false (Board.new 2 2 (2 * 2) [2, 0, 3, 1]).revealed r c = false) ∧
    (Board.new 2 2 (2 * 2) [2, 0, 3, 1]).lost = false :=
  full_board_wins 2 2 [2, 0, 3, 1] (by decide) (by decide) (by decide)

/-! ## The layout of the saved text -/

theorem wordsAux_word (w : List Char) :
    ∀ (cur : List Char) (s : Char) (rest : List Char), (∀ ch ∈ w, isSpace ch = false) →
      isSpace s = true → cur ++ w ≠ [] →
      wordsAux (w ++ s :: rest) cur = (cur ++ w) :: wordsAux rest [] := by
  induction w with
  | nil =>
    intro cur s rest _ hs hne
    have hc : cur.isEmpty = false := by
      cases cur with
      | nil => simp at hne
      | cons _ _ => rfl
    simp [wordsAux, hs, hc]
  | cons x w ih =>
    intro cur s rest hw hs _
    have hx : isSpace x = false := hw x (List.mem_cons_self _ _)
    have := ih (cur ++ [x]) s rest (fun ch h => hw ch (List.mem_cons_of_mem _ h)) hs (by simp)
    simp only [List.cons_append, wordsAux, hx, Bool.false_eq_true, if_false]
    refine Eq.trans this ?_
    simp

theorem wordsAux_last (w : List Char) :
    ∀ cur : List Char, (∀ ch ∈ w, isSpace ch = false) → cur ++ w ≠ [] →
      wordsAux w cur = [cur ++ w] := by
  induction w with
  | nil =>
    intro cur _ hne
    have hc : cur.isEmpty = false := by
      cases cur with
      | nil => simp at hne
      | cons _ _ => rfl
    simp [wordsAux, hc]
  | cons x w ih =>
    intro cur hw _
    have hx : isSpace x = false := hw x (List.mem_cons_self _ _)
    have := ih (cur ++ [x]) (fun ch h => hw ch (List.mem_cons_of_mem _ h)) (by simp)
    simp only [wordsAux, hx, Bool.false_eq_true, if_false]
    refine Eq.trans this ?_
    simp

theorem wordsOf_word (w : List Char) (s : Char) (rest : List Char)
    (hw : ∀ ch ∈ w, isSpace ch = false) (hs : isSpace s = true) (hne : w ≠ []) :
    wordsOf (w ++ s :: rest) = w :: wordsOf rest := by
  unfold wordsOf
  rw [wordsAux_word w [] s rest hw hs (by simpa using hne)]
  simp

/-- The characters of `out << n`: digits, after a minus sign when `n` is negative. -/
theorem putInt_chars (n : Int) :
    putInt n ≠ [] ∧ ∀ ch ∈ putInt n, isSpace ch = false ∧ ch ≠ '\n' := by
  obtain ⟨h1, h2, _⟩ := toDigits_spec n.natAbs
  have hd : ∀ ch ∈ Nat.toDigits 10 n.natAbs, isSpace ch = false ∧ ch ≠ '\n' := by
    intro ch hch
    have hdig := h2 ch hch
    refine ⟨(isDigit_not_space ch hdig).1, ?_⟩
    rintro rfl
    revert hdig
    decide
  unfold putInt
  split
  · refine ⟨by simp, ?_⟩
    intro ch hch
    rcases List.mem_cons.mp hch with rfl | h
    · decide
    · exact hd ch h
  · exact ⟨h1, hd⟩

theorem putInt_bit (b : Bool) : putInt (if b then 1 else 0) = bitWord b := by
  cases b <;> decide

/-- The line that `saveToFile` writes for one row, without its newline. -/
theorem putGrid_eq_unlines (g : List (List Bool)) :
    putGrid g = unlines (g.map fun row => (row.map fun b => bitWord b ++ [' ']).flatten) := by
  unfold putGrid unlines
  simp only [List.map_map]
  congr 1
  apply List.map_congr_left
  intro row _
  simp only [Function.comp, putInt_bit]

theorem wordsOf_rowLine (row : List Bool) :
    wordsOf (row.map fun b => bitWord b ++ [' ']).flatten = row.map bitWord := by
  induction row with
  | nil => rfl
  | cons b row ih =>
    simp only [List.map_cons, List.flatten_cons, List.append_assoc, List.singleton_append]
    rw [wordsOf_word (bitWord b) ' ' _ (by cases b <;> decide) (by decide)
      (by cases b <;> decide), ih]

theorem rowLine_no_newline (row : List Bool) :
    '\n' ∉ (row.map fun b => bitWord b ++ [' ']).flatten := by
  intro h
  simp only [List.mem_flatten, List.mem_map] at h
  obtain ⟨l, ⟨b, _, rfl⟩, hl⟩ := h
  revert hl
  cases b <;> decide

theorem unlines_append (l1 l2 : List (List Char)) :
    unlines (l1 ++ l2) = unlines l1 ++ unlines l2 := by
  simp [unlines]

/-- C11: for a well-formed board the text that `saveToFile` writes consists of the header
line, `rows cols totalMines` in decimal separated by single blanks, followed by `rows` lines
for `mine`, `rows` lines for `revealed` and `rows` lines for `flagged`; each of these lines
holds exactly `cols` white-space-separated tokens, the token being `1` where the entry is true
and `0` where it is false.  Boards that differ only in `neighbors` and `lost` write the same
text. -/
theorem saveToFile_layout (b : Board) (hwf : b.WellFormed) :
    ∃ ml rl fl : List (List Char),
      b.saveToFile true = some (unlines
        ((putInt b.rows ++ ' ' :: (putInt b.cols ++ ' ' :: putInt b.totalMines)) ::
          (ml ++ rl ++ fl))) ∧
      '\n' ∉ putInt b.rows ++ ' ' :: (putInt b.cols ++ ' ' :: putInt b.totalMines) ∧
      wordsOf (putInt b.rows ++ ' ' :: (putInt b.cols ++ ' ' :: putInt b.totalMines)) =
        [putInt b.rows, putInt b.cols, putInt b.totalMines] ∧
      (∀ l ∈ ml ++ rl ++ fl, '\n' ∉ l ∧ ((wordsOf l).length : Int) = b.cols) ∧
      ml.map wordsOf = b.mine.map (fun row => row.map bitWord) ∧
      rl.map wordsOf = b.revealed.map (fun row => row.map bitWord) ∧
      fl.map wordsOf = b.flagged.map (fun row => row.map bitWord) ∧
      (ml.length : Int) = b.rows ∧ (rl.length : Int) = b.rows ∧ (fl.length : Int) = b.rows ∧
      (∀ b2 : Board, b2.rows = b.rows → b2.cols = b.cols → b2.totalMines = b.totalMines →
        b2.mine = b.mine → b2.revealed = b.revealed → b2.flagged = b.flagged →
        b2.saveToFile true = b.saveToFile true) := by
  obtain ⟨hm, hr, hf⟩ := hwf
  have hline : ∀ (g : List (List Bool)), IsGrid g b.rows b.cols →
      ∀ l ∈ g.map (fun row => (row.map fun b => bitWord b ++ [' ']).flatten),
        '\n' ∉ l ∧ ((wordsOf l).length : Int) = b.cols := by
    intro g hg l hl
    obtain ⟨row, hrow, rfl⟩ := List.mem_map.mp hl
    refine ⟨rowLine_no_newline row, ?_⟩
    rw [wordsOf_rowLine, List.length_map]
    exact hg.2 row hrow
  have hwords : ∀ (g : List (List Bool)),
      (g.map (fun row => (row.map fun b => bitWord b ++ [' ']).flatten)).map wordsOf =
        g.map (fun row => row.map bitWord) := by
    intro g
    rw [List.map_map]
    apply List.map_congr_left
    intro row _
    exact wordsOf_rowLine row
  obtain ⟨r1, r2⟩ := putInt_chars b.rows
  obtain ⟨c1, c2⟩ := putInt_chars b.cols
  obtain ⟨t1, t2⟩ := putInt_chars b.totalMines
  refine ⟨_, _, _, ?_, ?_, ?_, ?_, hwords b.mine, hwords b.revealed, hwords b.flagged,
    by rw [List.length_map]; exact hm.1, by rw [List.length_map]; exact hr.1,
    by rw [List.length_map]; exact hf.1, ?_⟩
  · show some b.saveText = _
    rw [saveText_eq, putGrid_eq_unlines, putGrid_eq_unlines, putGrid_eq_unlines]
    simp [unlines, List.append_assoc]
  · intro h
    rcases List.mem_append.mp h with h | h
    · exact (r2 _ h).2 rfl
    · rcases List.mem_cons.mp h with h | h
      · exact absurd h (by decide)
      · rcases List.mem_append.mp h with h | h
        · exact (c2 _ h).2 rfl
        · rcases List.mem_cons.mp h with h | h
          · exact absurd h (by decide)
          · exact (t2 _ h).2 rfl
  · rw [wordsOf_word _ ' ' _ (fun ch h => (r2 ch h).1) (by decide) r1,
      wordsOf_word _ ' ' _ (fun ch h => (c2 ch h).1) (by decide) c1]
    unfold wordsOf
    rw [wordsAux_last _ [] (fun ch h => (t2 ch h).1) (by simpa using t1)]
    simp
  · intro l hl
    rcases List.mem_append.mp hl with h | h
    · rcases List.mem_append.mp h with h | h
      · exact hline _ hm l h
      · exact hline _ hr l h
    · exact hline _ hf l h
  · intro b2 e1 e2 e3 e4 e5 e6
    unfold Board.saveToFile Board.saveText
    rw [e1, e2, e3, e4, e5, e6]

/-- Witness for C11: the sample board. -/
theorem saveToFile_layout_witness :
    ∃ ml rl fl : List (List Char),
      sampleBoard.saveToFile true = some (unlines
        ((putInt sampleBoard.rows ++ ' ' ::
            (putInt sampleBoard.cols ++ ' ' :: putInt sampleBoard.totalMines)) ::
          (ml ++ rl ++ fl))) ∧
      '\n' ∉ putInt sampleBoard.rows ++ ' ' ::
        (putInt sampleBoard.cols ++ ' ' :: putInt sampleBoard.totalMines) ∧
      wordsOf (putInt sampleBoard.rows ++ ' ' ::
          (putInt sampleBoard.cols ++ ' ' :: putInt sampleBoard.totalMines)) =
        [putInt sampleBoard.rows, putInt sampleBoard.cols, putInt sampleBoard.totalMines] ∧
      (∀ l ∈ ml ++ rl ++ fl, '\n' ∉ l ∧ ((wordsOf l).length : Int) = sampleBoard.cols) ∧
      ml.map wordsOf = sampleBoard.mine.map (fun row => row.map bitWord) ∧
      rl.map wordsOf = sampleBoard.revealed.map (fun row => row.map bitWord) ∧
      fl.map wordsOf = sampleBoard.flagged.map (fun row => row.map bitWord) ∧
      (ml.length : Int) = sampleBoard.rows ∧ (rl.length : Int) = sampleBoard.rows ∧
      (fl.length : Int) = sampleBoard.rows ∧
      (∀ b2 : Board, b2.rows = sampleBoard.rows → b2.cols = sampleBoard.cols →
        b2.totalMines = sampleBoard.totalMines → b2.mine = sampleBoard.mine →
        b2.revealed = sampleBoard.revealed → b2.flagged = sampleBoard.flagged →
        b2.saveToFile true = sampleBoard.saveToFile true) :=
  saveToFile_layout sampleBoard (by decide)

/-! ## Parsing a coordinate -/

theorem isLetter_toNat {L : Char} (h : IsLetter L) :
    (97 ≤ L.toNat ∧ L.toNat ≤ 122) ∨ (65 ≤ L.toNat ∧ L.toNat ≤ 90) := by
  unfold IsLetter at h
  simp only [Char.le_def, UInt32.le_def, Fin.le_def] at h
  exact h

theorem letter_facts {L : Char} (h : IsLetter L) :
    L.isAlpha = true ∧ ¬ (L.toLower < 'a' ∨ L.toLower > 'z') ∧
    (L.toLower.toNat : Int) - ('a'.toNat : Int) = alphabetPos L := by
  have hb := isLetter_toNat h
  have hL : L = Char.ofNat L.toNat := (Char.ofNat_toNat L).symm
  generalize L.toNat = k at hb hL
  subst hL
  rcases hb with ⟨h1, h2⟩ | ⟨h1, h2⟩ <;> interval_cases k <;> decide

theorem isLetter_of_isAlpha {L : Char} (h : L.isAlpha = true) : IsLetter L := by
  unfold IsLetter
  simp only [Char.isAlpha, Char.isUpper, Char.isLower, Bool.or_eq_true, Bool.and_eq_true,
    decide_eq_true_eq] at h
  rcases h with h | h
  · exact Or.inr h
  · exact Or.inl h

theorem digitVal_nonneg {d : Char} (h : d.isDigit = true) : 0 ≤ digitVal d := by
  simp only [Char.isDigit, Bool.and_eq_true, decide_eq_true_eq] at h
  have : 48 ≤ d.toNat := h.1
  unfold digitVal
  omega

theorem digitsVal_nonneg (ds : List Char) (h : ∀ d ∈ ds, d.isDigit = true) :
    0 ≤ digitsVal ds := by
  unfold digitsVal
  have key : ∀ (l : List Char) (a : Int), 0 ≤ a → (∀ d ∈ l, d.isDigit = true) →
      0 ≤ l.foldl (fun a d => a * 10 + digitVal d) a := by
    intro l
    induction l with
    | nil => intro a ha _; exact ha
    | cons x xs ih =>
      intro a ha hl
      apply ih
      · have := digitVal_nonneg (hl x (List.mem_cons_self _ _))
        show 0 ≤ a * 10 + digitVal x
        omega
      · exact fun d hd => hl d (List.mem_cons_of_mem _ hd)
  exact key ds 0 le_rfl h

theorem takeWhile_digits (ds rest : List Char) (hds : ∀ d ∈ ds, d.isDigit = true)
    (hrest : ∀ x ∈ rest.head?, x.isDigit = false) :
    (ds ++ rest).takeWhile Char.isDigit = ds := by
  rw [List.takeWhile_append_of_pos hds]
  cases rest with
  | nil => simp
  | cons x xs =>
    have := hrest x (by simp)
    simp [List.takeWhile_cons, this]

/-- The conversion of a text that begins with white space, an optional plus sign and
digits. -/
theorem stoi_of_parts (ws sign ds rest : List Char) (hws : ∀ w ∈ ws, isSpace w = true)
    (hsign : sign = [] ∨ sign = ['+']) (hne : ds ≠ []) (hds : ∀ d ∈ ds, d.isDigit = true)
    (hrest : ∀ x ∈ rest.head?, x.isDigit = false) (hmax : digitsVal ds ≤ intMax) :
    stoi (ws ++ (sign ++ (ds ++ rest))) = Except.ok (digitsVal ds) := by
  have hnn := digitsVal_nonneg ds hds
  have htake := takeWhile_digits ds rest hds hrest
  obtain ⟨d, ds2, rfl⟩ := List.exists_cons_of_ne_nil hne
  have hd := isDigit_not_space d (hds d (List.mem_cons_self _ _))
  have hmin : ¬ (digitsVal (d :: ds2) > intMax ∨ digitsVal (d :: ds2) < intMin) := by
    unfold intMin; unfold intMax at hmax ⊢; omega
  unfold stoi
  rw [List.dropWhile_append_of_pos hws]
  rcases hsign with rfl | rfl
  · have hsp : ([] ++ (d :: ds2 ++ rest)).dropWhile isSpace = d :: (ds2 ++ rest) := by
      simp [List.dropWhile_cons, hd.1]
    rw [hsp]
    have hplus : (d == '+') = false := by simp [hd.2.2]
    have hminus : (d == '-') = false := by simp [hd.2.1]
    simp only [hplus, hminus, Bool.or_self, Bool.false_eq_true, if_false]
    rw [← List.cons_append, htake]
    simp only [List.isEmpty_cons, Bool.false_eq_true, if_false]
    rw [if_neg hmin]
  · have hsp : (['+'] ++ (d :: ds2 ++ rest)).dropWhile isSpace = '+' :: (d :: ds2 ++ rest) := by
      rw [List.singleton_append, List.dropWhile_cons_of_neg (by decide)]
    rw [hsp]
    have hplus : ('+' == '+') = true := by decide
    have hminus : ('+' == '-') = false := by decide
    simp only [hplus, hminus, Bool.or_true, if_true, Bool.false_eq_true, if_false]
    rw [htake]
    simp only [List.isEmpty_cons, Bool.false_eq_true, if_false]
    rw [if_neg hmin]

/-- A conversion that yields a value of at least 1 has read white space, an optional plus
sign and digits. -/
theorem leadingPositiveInt_of_stoi {t : List Char} {val : Int}
    (h : stoi t = Except.ok val) (hval : 1 ≤ val) : LeadingPositiveInt t ∧
      1 ≤ val ∧ val ≤ intMax := by
  unfold stoi at h
  have hsplit := List.takeWhile_append_dropWhile isSpace t
  have hws : ∀ w ∈ t.takeWhile isSpace, isSpace w = true := fun w hw => List.mem_takeWhile_imp hw
  cases hdrop : t.dropWhile isSpace with
  | nil => rw [hdrop] at h; simp at h
  | cons ch cs =>
    rw [hdrop] at h hsplit
    simp only [] at h
    have hbody : ∀ body : List Char,
        (∀ d ∈ body.takeWhile Char.isDigit, d.isDigit = true) ∧
        (∀ x ∈ (body.dropWhile Char.isDigit).head?, x.isDigit = false) := by
      intro body
      refine ⟨fun d hd => List.mem_takeWhile_imp hd, ?_⟩
      intro x hx
      have := List.head?_dropWhile_not Char.isDigit body
      rw [Option.mem_def.mp hx] at this
      simpa using this
    by_cases hminus : ch = '-'
    · subst hminus
      simp only [beq_self_eq_true, Bool.true_or, if_true] at h
      split at h
      · simp at h
      · split at h
        · simp at h
        · have hv : val = - digitsVal (cs.takeWhile Char.isDigit) := by
            simpa using h.symm
          have := digitsVal_nonneg _ (hbody cs).1
          omega
    · have hm : (ch == '-') = false := by simp [hminus]
      by_cases hplus : ch = '+'
      · subst hplus
        simp only [hm, beq_self_eq_true, Bool.or_true, if_true, Bool.false_eq_true,
          if_false] at h
        split at h
        · simp at h
        · rename_i hemp
          split at h
          · simp at h
          · rename_i hrange
            have hv : val = digitsVal (cs.takeWhile Char.isDigit) := by simpa using h.symm
            refine ⟨⟨t.takeWhile isSpace, ['+'], cs.takeWhile Char.isDigit,
              cs.dropWhile Char.isDigit, ?_, hws, Or.inr rfl, ?_, (hbody cs).1, (hbody cs).2,
              by omega, by omega⟩, hval, by omega⟩
            · rw [List.takeWhile_append_dropWhile, List.singleton_append]; exact hsplit.symm
            · intro he; rw [he] at hemp; simp at hemp
      · have hp : (ch == '+') = false := by simp [hplus]
        simp only [hm, hp, Bool.or_self, Bool.false_eq_true, if_false] at h
        split at h
        · simp at h
        · rename_i hemp
          split at h
          · simp at h
          · rename_i hrange
            have hv : val = digitsVal ((ch :: cs).takeWhile Char.isDigit) := by
              simpa using h.symm
            refine ⟨⟨t.takeWhile isSpace, [], (ch :: cs).takeWhile Char.isDigit,
              (ch :: cs).dropWhile Char.isDigit, ?_, hws, Or.inl rfl, ?_, (hbody _).1,
              (hbody _).2, by omega, by omega⟩, hval, by omega⟩
            · rw [List.takeWhile_append_dropWhile, List.nil_append]; exact hsplit.symm
            · intro he; rw [he] at hemp; simp at hemp

theorem parseCoord_cons (L : Char) (t : List Char) (r c : Int) (ht : t ≠ [])
    (hL : IsLetter L) :
    parseCoord (L :: t) r c =
      match stoi t with
      | Except.ok val => if val < 1 then (false, alphabetPos L, c)
          else (true, alphabetPos L, val - 1)
      | Except.error _ => (false, alphabetPos L, c) := by
  obtain ⟨h1, h2, h3⟩ := letter_facts hL
  have hlen : ¬ (L :: t).length < 2 := by
    cases t with
    | nil => exact absurd rfl ht
    | cons _ _ => simp
  unfold parseCoord
  rw [if_neg hlen]
  simp only [h1, Bool.not_true, Bool.false_eq_true, if_false]
  rw [if_neg h2, h3]

theorem parseCoord_fst_iff (s : List Char) (r c : Int) :
    (parseCoord s r c).1 = true ↔
      ∃ (L : Char) (t : List Char), s = L :: t ∧ IsLetter L ∧ LeadingPositiveInt t := by
  constructor
  · intro h
    unfold parseCoord at h
    split at h
    · exact Bool.noConfusion h
    · rename_i hlen
      cases s with
      | nil => simp at hlen
      | cons uc rest =>
        simp only [] at h
        split at h
        · exact Bool.noConfusion h
        · rename_i halpha
          have hL : IsLetter uc := isLetter_of_isAlpha (by simpa using halpha)
          split at h
          · exact Bool.noConfusion h
          · cases hst : stoi rest with
            | error e => rw [hst] at h; exact Bool.noConfusion h
            | ok val =>
              rw [hst] at h
              simp only [] at h
              split at h
              · exact Bool.noConfusion h
              · rename_i hval
                exact ⟨uc, rest, rfl, hL, (leadingPositiveInt_of_stoi hst (by omega)).1⟩
  · rintro ⟨L, t, rfl, hL, ws, sign, ds, rest, rfl, hws, hsign, hne, hds, hrest, h1, h2⟩
    have hne2 : ws ++ (sign ++ (ds ++ rest)) ≠ [] := by
      intro he
      have := congrArg List.length he
      simp only [List.length_append, List.length_nil] at this
      have : ds.length = 0 := by omega
      exact hne (List.length_eq_zero.mp this)
    rw [parseCoord_cons L _ r c hne2 hL, stoi_of_parts ws sign ds rest hws hsign hne hds hrest h2]
    simp only []
    rw [if_neg (by omega)]

/-- C12: for every ASCII letter `L`, upper or lower case, and every integer `n` with
`1 <= n <= 2^31 - 1`, `parseCoord` applied to `L` followed by the decimal digits of `n`
succeeds with `r` the zero-based alphabet position of `L`, ignoring case, and `c = n - 1`;
`b2` yields `(1, 1)` and `A1` yields `(0, 0)`. -/
theorem parseCoord_letter_number (L : Char) (n : Nat) (r0 c0 : Int) (hL : IsLetter L)
    (h1 : 1 ≤ n) (h2 : n ≤ 2147483647) :
    parseCoord (L :: Nat.toDigits 10 n) r0 c0 = (true, alphabetPos L, (n : Int) - 1) ∧
    parseCoord "b2".toList r0 c0 = (true, 1, 1) ∧
    parseCoord "A1".toList r0 c0 = (true, 0, 0) := by
  have key : ∀ (L : Char) (n : Nat), IsLetter L → 1 ≤ n → n ≤ 2147483647 →
      parseCoord (L :: Nat.toDigits 10 n) r0 c0 = (true, alphabetPos L, (n : Int) - 1) := by
    intro L n hL h1 h2
    obtain ⟨d1, d2, d3⟩ := toDigits_spec n
    have hst := stoi_of_parts [] [] (Nat.toDigits 10 n) [] (by simp) (Or.inl rfl) d1 d2
      (by simp) (by rw [d3]; unfold intMax; omega)
    simp only [List.nil_append, List.append_nil] at hst
    rw [parseCoord_cons L _ r0 c0 d1 hL, hst]
    simp only []
    rw [if_neg (by rw [d3]; omega), d3]
  refine ⟨key L n hL h1 h2, ?_, ?_⟩
  · have := key 'b' 2 (by decide) (by decide) (by decide)
    have e : alphabetPos 'b' = 1 := by decide
    rw [e] at this
    exact this
  · have := key 'A' 1 (by decide) (by decide) (by decide)
    have e : alphabetPos 'A' = 0 := by decide
    rw [e] at this
    exact this

/-- Witness for C12: the coordinate `z99`. -/
theorem parseCoord_letter_number_witness :
    parseCoord ('z' :: Nat.toDigits 10 99) 0 0 = (true, alphabetPos 'z', ((99 : Nat) : Int) - 1) ∧
    parseCoord "b2".toList 0 0 = (true, 1, 1) ∧
    parseCoord "A1".toList 0 0 = (true, 0, 0) :=
  parseCoord_letter_number 'z' 99 0 0 (by decide) (by decide) (by decide)

/-- Counterexample for C13: `parseCoord` succeeds on `b2x`, whose remainder `2x` has a
trailing character that is not a digit, on `b+2`, whose remainder has a sign, and on `b 2`,
whose remainder has leading white space; each yields `(1, 1)`. -/
theorem parseCoord_accepts_trailing_text :
    parseCoord "b2x".toList 0 0 = (true, 1, 1) ∧
    parseCoord "b+2".toList 0 0 = (true, 1, 1) ∧
    parseCoord "b 2".toList 0 0 = (true, 1, 1) := by
  decide

/-- C13, amended: `parseCoord` succeeds exactly on the strings that consist of a letter
followed by a text that begins, after optional white space and an optional plus sign, with a
run of digits whose value is between 1 and `2^31 - 1`; what follows the digits is ignored.
So it fails on every string shorter than 2 characters, on every string whose first character
is not a letter, and on every string whose remainder does not begin in that way; `1a`, the
empty string, `z` and `c0` fail. -/
theorem parseCoord_fails_iff (s : List Char) (r c : Int) :
    ((parseCoord s r c).1 = false ↔
      ¬ ∃ (L : Char) (t : List Char), s = L :: t ∧ IsLetter L ∧ LeadingPositiveInt t) ∧
    (s.length < 2 → (parseCoord s r c).1 = false) ∧
    (∀ (L : Char) (t : List Char), s = L :: t → ¬ IsLetter L → (parseCoord s r c).1 = false) ∧
    (∀ (L : Char) (t : List Char), s = L :: t → ¬ LeadingPositiveInt t →
      (parseCoord s r c).1 = false) ∧
    (parseCoord "1a".toList r c).1 = false ∧ (parseCoord "".toList r c).1 = false ∧
    (parseCoord "z".toList r c).1 = false ∧ (parseCoord "c0".toList r c).1 = false := by
  have hiff : ∀ s : List Char, (parseCoord s r c).1 = false ↔
      ¬ ∃ (L : Char) (t : List Char), s = L :: t ∧ IsLetter L ∧ LeadingPositiveInt t := by
    intro s
    rw [← parseCoord_fst_iff s r c]
    cases (parseCoord s r c).1 <;> simp
  refine ⟨hiff s, ?_, ?_, ?_, ?_, ?_, ?_, ?_⟩
  · intro hlen
    unfold parseCoord
    rw [if_pos hlen]
  · intro L t hs hL
    rw [hiff]
    rintro ⟨L2, t2, hs2, hL2, _⟩
    rw [hs] at hs2
    obtain ⟨rfl, rfl⟩ := List.cons.inj hs2
    exact hL hL2
  · intro L t hs ht
    rw [hiff]
    rintro ⟨L2, t2, hs2, _, ht2⟩
    rw [hs] at hs2
    obtain ⟨rfl, rfl⟩ := List.cons.inj hs2
    exact ht ht2
  · rfl
  · rfl
  · rfl
  · rfl

end Minesweeper
